import Mathlib

/-!
# Parallel top-50 pixel selection: embedding and verification

Shallow embedding of `utilities.cpp` / `utilities.h` / `main.h`.

* `std::vector<T>` is `List T`. `int` is the 32-bit two's-complement integer, a value of `Int`
  between `-2147483648` and `2147483647`: `rows` is `image.size()` reduced into that range
  (`rowsOf`), and the products `i * rows` and `(i + 1) * rows` of the dispatch loops wrap
  around (`wrapInt32`) before the division, as the compiled multiplication does. For
  1048576 rows and 2048 threads the last product is `2 ^ 31`, `endRow` is `-1048576`, and the
  chunk range lies outside the image. Statements that a result is returned carry the bound
  `numThreads * rows < 2147483648`, under which no product wraps (`dispatch_products_bounded`).
* `std::priority_queue<Pixel, std::vector<Pixel>, ComparePixels>` is its underlying vector in
  binary-heap layout, with `push` = `push_back` + `std::push_heap`, `pop` = `std::pop_heap`
  + `pop_back`, `top` = `front`, following the hole-based sift loops of the standard library.
* `std::sort` (used by `GetTopPixelsWithSorting` only) is an argument `sort` of the model with
  the contract of the language, `SortContract`.
* Behaviour the language leaves undefined (division by zero, an iterator range outside the
  vector) is the result `none`.
* The threads of `FindTopPixelsConcurrently` take the mutex once per cell, so a run is an
  interleaving of the workers' offer sequences; the scheduler is the extra argument `sched`,
  the list of worker indices in the order in which the lock is granted.
-/

namespace TopK

/-! ## Data model (`main.h`, `utilities.h`) -/

/-- The `Pixel` struct of `main.h`. -/
structure Pixel where
  value : Int
  row : Int
  col : Int
deriving DecidableEq, Repr, Inhabited

/-- The comparator `ComparePixels::operator()` of `utilities.h`. -/
def ComparePixels (p1 p2 : Pixel) : Bool := decide (p1.value > p2.value)

/-! ## `std::priority_queue` over a vector in heap layout -/

/-- The loop of `std::__push_heap`: the hole climbs while the parent compares before `value`;
`fuel` bounds the number of iterations (`holeIndex` is enough, the hole strictly decreases). -/
def pushHeapLoop : Nat → List Pixel → Nat → Nat → Pixel → List Pixel
  | 0, a, holeIndex, _, value => a.set holeIndex value
  | fuel + 1, a, holeIndex, topIndex, value =>
    let parent := (holeIndex - 1) / 2
    if holeIndex > topIndex ∧ ComparePixels (a.getD parent default) value = true then
      pushHeapLoop fuel (a.set holeIndex (a.getD parent default)) parent topIndex value
    else a.set holeIndex value

/-- The function `std::push_heap(first, last, comp)`: the last element is pushed onto the heap
formed by the others. -/
def push_heap (a : List Pixel) : List Pixel :=
  pushHeapLoop a.length a (a.length - 1) 0 (a.getD (a.length - 1) default)

/-- The first loop of `std::__adjust_heap`: the hole descends to the child that does not compare
before its sibling, while a second child exists (`secondChild` and `holeIndex` are equal at the
head of every iteration, so one index stands for both). Returns the vector and the hole. -/
def adjustLoop : Nat → List Pixel → Nat → Nat → List Pixel × Nat
  | 0, a, holeIndex, _ => (a, holeIndex)
  | fuel + 1, a, holeIndex, len =>
    if holeIndex < (len - 1) / 2 then
      let secondChild := 2 * (holeIndex + 1)
      let secondChild :=
        if ComparePixels (a.getD secondChild default) (a.getD (secondChild - 1) default) = true
        then secondChild - 1 else secondChild
      adjustLoop fuel (a.set holeIndex (a.getD secondChild default)) secondChild len
    else (a, holeIndex)

/-- The step of `std::__adjust_heap` for a last node with a single child (`len` even). -/
def adjustLast (s : List Pixel × Nat) (len : Nat) : List Pixel × Nat :=
  if len % 2 = 0 ∧ 2 ≤ len ∧ s.2 = (len - 2) / 2 then
    (s.1.set s.2 (s.1.getD (2 * (s.2 + 1) - 1) default), 2 * (s.2 + 1) - 1)
  else s

/-- The function `std::__adjust_heap(first, holeIndex, len, value, comp)`. -/
def adjust_heap (a : List Pixel) (holeIndex len : Nat) (value : Pixel) : List Pixel :=
  let s := adjustLast (adjustLoop len a holeIndex len) len
  pushHeapLoop len s.1 s.2 holeIndex value

/-- The function `std::pop_heap(first, last, comp)`: the first element goes to the last position
and the others are made a heap again. -/
def pop_heap (a : List Pixel) : List Pixel :=
  if a.length > 1 then
    let last := a.length - 1
    let value := a.getD last default
    adjust_heap (a.set last (a.getD 0 default)) 0 last value
  else a

/-- The method `priority_queue::push`. -/
def pqPush (c : List Pixel) (x : Pixel) : List Pixel := push_heap (c ++ [x])

/-- The method `priority_queue::pop`. -/
def pqPop (c : List Pixel) : List Pixel := (pop_heap c).dropLast

/-- The method `priority_queue::top` (defined on a non-empty queue). -/
def pqTop (c : List Pixel) : Option Pixel := c.head?

/-! ## The workers (`GetTopPixelsWithMaxHeap`, `GetTopPixelsWithMaxHeapAsync`) -/

/-- The body of the inner loops: `maxHeap.push(p); if (maxHeap.size() > 50) maxHeap.pop();`. -/
def offer (maxHeap : List Pixel) (p : Pixel) : List Pixel :=
  let maxHeap := pqPush maxHeap p
  if maxHeap.length > 50 then pqPop maxHeap else maxHeap

/-- The pixels `{chunk[i][j], startRow + i, j}` of one row, for `j` from the given column on. -/
def rowOffers (r : Int) : List Int → Int → List Pixel
  | [], _ => []
  | v :: vs, j => ⟨v, r, j⟩ :: rowOffers r vs (j + 1)

/-- The pixels offered by the two nested loops over a chunk, in row-major order, `i` being the
chunk-relative index of the first row given. -/
def chunkOffers (startRow : Int) : List (List Int) → Int → List Pixel
  | [], _ => []
  | r :: rest, i => rowOffers (startRow + i) r 0 ++ chunkOffers startRow rest (i + 1)

/-- The sequence of locked offers that one thread running `GetTopPixelsWithMaxHeap` makes to the
shared queue (`endRow` is unused by the code). -/
def workerOffers (chunk : List (List Int)) (startRow _endRow : Int) : List Pixel :=
  chunkOffers startRow chunk 0

/-- The function `GetTopPixelsWithMaxHeap` run without interruption on the shared queue. -/
def GetTopPixelsWithMaxHeap (chunk : List (List Int)) (startRow endRow : Int)
    (maxHeap : List Pixel) : List Pixel :=
  (workerOffers chunk startRow endRow).foldl offer maxHeap

/-- The function `GetTopPixelsWithMaxHeapAsync`: the same loops on a queue of its own. -/
def GetTopPixelsWithMaxHeapAsync (chunk : List (List Int)) (startRow _endRow : Int) :
    List Pixel :=
  (chunkOffers startRow chunk 0).foldl offer []

/-! ## Partitioning and dispatch -/

/-- The value of an `int` expression whose mathematical value is `x`: the representative of
`x` modulo `2 ^ 32` between `-2147483648` and `2147483647`. -/
def wrapInt32 (x : Int) : Int := (2147483648 + x) % 4294967296 - 2147483648

/-- The initialisation `const int rows = image.size();`. -/
def rowsOf (image : List (List Int)) : Int := wrapInt32 image.length

/-- The expression `(i * rows) / numThreads` of the dispatch loops: the product is an `int`,
`/` truncates. -/
def startRowOf (i rows numThreads : Int) : Int := (wrapInt32 (i * rows)).tdiv numThreads

/-- The expression `((i + 1) * rows) / numThreads` of the dispatch loops. -/
def endRowOf (i rows numThreads : Int) : Int := (wrapInt32 ((i + 1) * rows)).tdiv numThreads

/-- The chunk `vector(image.begin() + startRow, image.begin() + endRow)`; the iterator range
has to lie inside the image. -/
def chunkRows (image : List (List Int)) (startRow endRow : Int) : Option (List (List Int)) :=
  if 0 ≤ startRow ∧ startRow ≤ endRow ∧ endRow ≤ (image.length : Int) then
    some ((image.drop startRow.toNat).take (endRow - startRow).toNat)
  else none

/-- The dispatch loop `for (int i = 0; i < numThreads; ++i)`, from index `i` with `n` iterations
left; `worker` is what is started on each chunk. -/
def dispatch {β : Type} (worker : List (List Int) → Int → Int → β) (image : List (List Int))
    (numThreads : Int) : Nat → Int → Option (List β)
  | 0, _ => some []
  | n + 1, i =>
    let rows := rowsOf image
    let startRow := startRowOf i rows numThreads
    let endRow := endRowOf i rows numThreads
    match chunkRows image startRow endRow with
    | none => none
    | some chunk =>
      match dispatch worker image numThreads n (i + 1) with
      | none => none
      | some rest => some (worker chunk startRow endRow :: rest)

/-- The order in which the lock is granted: `sched` names the worker making the next offer (a
worker with nothing left is skipped); when `sched` ends, the workers finish one after another. -/
def interleave : List (List Pixel) → List Nat → List Pixel
  | queues, [] => queues.flatten
  | queues, w :: sched =>
    match queues.getD w [] with
    | [] => interleave queues sched
    | p :: rest => p :: interleave (queues.set w rest) sched

/-! ## The two entry points -/

/-- The loop `while (!maxHeap.empty()) { result.push_back(maxHeap.top()); maxHeap.pop(); }`. -/
def drainLoop : Nat → List Pixel → List Pixel → List Pixel
  | 0, _, result => result
  | fuel + 1, maxHeap, result =>
    match maxHeap with
    | [] => result
    | t :: _ => drainLoop fuel (pqPop maxHeap) (result ++ [t])

/-- The loop `while (!localResults.empty()) { maxHeap.push(localResults.top());
localResults.pop(); }` for one future. -/
def mergeLoop : Nat → List Pixel → List Pixel → List Pixel
  | 0, maxHeap, _ => maxHeap
  | fuel + 1, maxHeap, localResults =>
    match localResults with
    | [] => maxHeap
    | t :: _ => mergeLoop fuel (pqPush maxHeap t) (pqPop localResults)

/-- The loop `while (!maxHeap.empty() && result.size() <= 50) { ... }` of `FindTopPixelsAsync`. -/
def drainLoopAsync : Nat → List Pixel → List Pixel → List Pixel
  | 0, _, result => result
  | fuel + 1, maxHeap, result =>
    match maxHeap with
    | [] => result
    | t :: _ =>
      if result.length ≤ 50 then drainLoopAsync fuel (pqPop maxHeap) (result ++ [t])
      else result

/-- The function `FindTopPixelsConcurrently`; `sched` is the order in which the threads get the
mutex. `chunkSize = (rows + numThreads - 1) / numThreads` is computed and never used; its
division has no value for `numThreads = 0`. -/
def FindTopPixelsConcurrently (image : List (List Int)) (numThreads : Int) (sched : List Nat) :
    Option (List Pixel) :=
  if numThreads = 0 then none
  else
    match dispatch workerOffers image numThreads numThreads.toNat 0 with
    | none => none
    | some queues =>
      let maxHeap := (interleave queues sched).foldl offer []
      some (drainLoop maxHeap.length maxHeap []).reverse

/-- The function `FindTopPixelsAsync`. -/
def FindTopPixelsAsync (image : List (List Int)) (numThreads : Int) : Option (List Pixel) :=
  if numThreads = 0 then none
  else
    match dispatch GetTopPixelsWithMaxHeapAsync image numThreads numThreads.toNat 0 with
    | none => none
    | some futuresAsync =>
      let maxHeap :=
        futuresAsync.foldl (fun maxHeap localResults =>
          mergeLoop localResults.length maxHeap localResults) []
      some (drainLoopAsync maxHeap.length maxHeap []).reverse

/-! ## The sorting-based worker (`GetTopPixelsWithSorting`) -/

/-- The guarded body of the loops of `GetTopPixelsWithSorting` for one pixel. The argument
`sort` stands for the call `std::sort(topPixels.begin(), topPixels.end(), cmp)` with
`cmp(a, b) = a.value > b.value`, of which the language fixes only the contract (the result is a
rearrangement in which no later element compares before an earlier one). -/
def sortingOffer (sort : List Pixel → List Pixel) (topPixels : List Pixel) (pixel : Pixel) :
    List Pixel :=
  if topPixels.length < 50 then sort (topPixels ++ [pixel])
  else
    match topPixels.getLast? with
    | some back =>
      if pixel.value > back.value then sort (topPixels.dropLast ++ [pixel]) else topPixels
    | none => topPixels

/-- The outer loop `for (int i = startRow; i < endRow; ++i)` of `GetTopPixelsWithSorting`, with
`n` iterations left; `image[i]` has to be a row of the image. -/
def sortingRows (sort : List Pixel → List Pixel) (image : List (List Int)) :
    Nat → Int → List Pixel → Option (List Pixel)
  | 0, _, topPixels => some topPixels
  | n + 1, i, topPixels =>
    if 0 ≤ i then
      match image[i.toNat]? with
      | some r =>
        sortingRows sort image n (i + 1) ((rowOffers i r 0).foldl (sortingOffer sort) topPixels)
      | none => none
    else none

/-- The function `GetTopPixelsWithSorting`, as the new value of `topPixels`. -/
def GetTopPixelsWithSorting (sort : List Pixel → List Pixel) (image : List (List Int))
    (topPixels : List Pixel) (startRow endRow : Int) : Option (List Pixel) :=
  sortingRows sort image (endRow - startRow).toNat startRow topPixels

/-- The contract of `std::sort` for the comparator `a.value > b.value`. -/
def SortContract (sort : List Pixel → List Pixel) : Prop :=
  ∀ l, (sort l).Perm l ∧ (sort l).Pairwise (fun a b => a.value ≥ b.value)

/-- Insertion sort by value from the largest, a function meeting `SortContract`. -/
def insertionSortDesc (l : List Pixel) : List Pixel :=
  l.insertionSort (fun a b => a.value ≥ b.value)

/-! ## Vocabulary of the statements -/

/-- The cell `(r, c)` of the image holds `v`. -/
@[reducible]
def cellAt (image : List (List Int)) (r c : Nat) (v : Int) : Prop :=
  (image[r]?).bind (fun rowl => rowl[c]?) = some v

/-- The number of cells of the image (`H * W` for a rectangular one). -/
def cellCount (image : List (List Int)) : Nat := (image.map List.length).sum

/-- The number of cells in the rows handed to worker `i` by the dispatch loops. -/
def partitionCells (image : List (List Int)) (numThreads : Int) (i : Nat) : Nat :=
  match chunkRows image (startRowOf i (rowsOf image) numThreads)
      (endRowOf i (rowsOf image) numThreads) with
  | some chunk => cellCount chunk
  | none => 0

/-- The `(row, col)` pairs of a result. -/
def coords (result : List Pixel) : List (Int × Int) := result.map fun p => (p.row, p.col)

/-- A grid of `h` rows and `w` columns filled with zeros. -/
def zeroGrid (h w : Nat) : List (List Int) := List.replicate h (List.replicate w 0)

/-! ## Vocabulary of the proofs -/

/-- The value stored at an index of the vector underlying the queue. -/
def keyOf (a : List Pixel) : Nat → Int := fun i => (a.getD i default).value

/-- Heap order of the first `len` positions for `ComparePixels`: no parent has a greater value
than its child. -/
def HeapUpTo (len : Nat) (f : Nat → Int) : Prop :=
  ∀ i, 0 < i → i < len → f ((i - 1) / 2) ≤ f i

/-- Heap order of every link that does not touch the hole, and the parent of the hole is below
the children of the hole. -/
def HoleInv (len hole : Nat) (f : Nat → Int) : Prop :=
  (∀ i, 0 < i → i < len → i ≠ hole → (i - 1) / 2 ≠ hole → f ((i - 1) / 2) ≤ f i) ∧
  (∀ c, 0 < c → c < len → (c - 1) / 2 = hole → 0 < hole → f ((hole - 1) / 2) ≤ f c)

/-- The vector is a heap. -/
def IsHeap (a : List Pixel) : Prop := HeapUpTo a.length (keyOf a)

/-- State of a bounded queue after the offers `xs`: a heap of `min 50 |xs|` entries, the other
offers (the evicted ones) having values below every resident entry. -/
def TopInv (h xs : List Pixel) : Prop :=
  IsHeap h ∧ h.length = min 50 xs.length ∧
    ∃ ev : List Pixel, (h ++ ev).Perm xs ∧ ∀ c ∈ ev, ∀ e ∈ h, c.value ≤ e.value

/-- All cells of the image as pixels, in row-major order. -/
def allCells (image : List (List Int)) : List Pixel := chunkOffers 0 image 0

/-- What a correct top-50 selection over `cells` looks like: `min 50 |cells|` entries, sorted by
value from the largest, and every cell left out has a value below every entry. -/
def TopResult (cells r : List Pixel) : Prop :=
  r.length = min 50 cells.length ∧ r.Pairwise (fun a b => a.value ≥ b.value) ∧
    ∃ ev : List Pixel, (r ++ ev).Perm cells ∧ ∀ c ∈ ev, ∀ e ∈ r, c.value ≤ e.value

/-- The runs of the workers: `Interleaving queues order` holds when `order` is obtained by
letting, again and again, some worker with a pending offer make its next one, until no worker
has any left. -/
inductive Interleaving : List (List Pixel) → List Pixel → Prop
  | done (queues : List (List Pixel)) : queues.flatten = [] → Interleaving queues []
  | step (queues : List (List Pixel)) (w : Nat) (p : Pixel) (rest order : List Pixel) :
      queues.getD w [] = p :: rest → Interleaving (queues.set w rest) order →
      Interleaving queues (p :: order)

/-- A grid of `h` rows and `w` columns holding `0, 1, 2, ...` in row-major order. -/
def rampGrid (h w : Nat) : List (List Int) :=
  (List.range h).map fun r => (List.range w).map fun c => ((r * w + c : Nat) : Int)

/-! ## Lemmas on vectors -/

theorem getD_set_eq (a : List Pixel) (i : Nat) (x : Pixel) (h : i < a.length) :
    (a.set i x).getD i default = x := by
  simp [List.getD_eq_getElem?_getD, List.getElem?_set, h]

theorem getD_set_ne (a : List Pixel) (i j : Nat) (x : Pixel) (h : i ≠ j) :
    (a.set i x).getD j default = a.getD j default := by
  simp [List.getD_eq_getElem?_getD, List.getElem?_set, h]

theorem keyOf_set (a : List Pixel) (i : Nat) (x : Pixel) (h : i < a.length) :
    keyOf (a.set i x) = Function.update (keyOf a) i x.value := by
  funext j
  by_cases hj : j = i
  · subst hj
    show ((a.set j x).getD j default).value = _
    rw [getD_set_eq a j x h, Function.update_same]
  · have hij : i ≠ j := fun e => hj e.symm
    show ((a.set i x).getD j default).value = _
    rw [getD_set_ne a i j x hij, Function.update_noteq hj]
    rfl

theorem set_perm (a : List Pixel) (i : Nat) (x : Pixel) (h : i < a.length) :
    (a.getD i default :: a.set i x).Perm (x :: a) := by
  induction a generalizing i with
  | nil => simp at h
  | cons y ys ih =>
    cases i with
    | zero => simpa using List.Perm.swap x y ys
    | succ k =>
      have hk : k < ys.length := by simpa using h
      have h1 := ih k hk
      simp only [List.set_cons_succ, List.getD_cons_succ]
      exact ((List.Perm.swap y (ys.getD k default) (ys.set k x)).trans
        (h1.cons y)).trans (List.Perm.swap x y ys)

theorem perm_step {x y z : Pixel} {A A1 B : List Pixel}
    (h1 : (x :: B).Perm (y :: A1)) (h2 : (z :: A1).Perm (x :: A)) :
    (z :: B).Perm (y :: A) := by
  have e1 : (x :: z :: B).Perm (z :: y :: A1) :=
    (List.Perm.swap z x B).trans (h1.cons z)
  have e2 : (z :: y :: A1).Perm (y :: x :: A) :=
    (List.Perm.swap y z A1).trans (h2.cons y)
  have e3 : (x :: z :: B).Perm (x :: y :: A) :=
    (e1.trans e2).trans (List.Perm.swap x y A)
  exact e3.cons_inv

/-! ## Heap order -/

theorem pushHeapLoop_length (fuel : Nat) (a : List Pixel) (hole top : Nat) (v : Pixel) :
    (pushHeapLoop fuel a hole top v).length = a.length := by
  induction fuel generalizing a hole with
  | zero => simp [pushHeapLoop]
  | succ n ih =>
    simp only [pushHeapLoop]
    split_ifs
    · rw [ih]; simp
    · simp

theorem pushHeapLoop_frame (fuel : Nat) (a : List Pixel) (hole top : Nat) (v : Pixel)
    (j : Nat) (hj : hole < j) :
    (pushHeapLoop fuel a hole top v).getD j default = a.getD j default := by
  induction fuel generalizing a hole with
  | zero => simp only [pushHeapLoop]; exact getD_set_ne a hole j v (by omega)
  | succ n ih =>
    simp only [pushHeapLoop]
    split_ifs
    · rw [ih _ _ (by omega)]; exact getD_set_ne a hole j _ (by omega)
    · exact getD_set_ne a hole j v (by omega)

theorem pushHeapLoop_perm (fuel : Nat) (a : List Pixel) (hole top : Nat) (v : Pixel)
    (h : hole < a.length) :
    (a.getD hole default :: pushHeapLoop fuel a hole top v).Perm (v :: a) := by
  induction fuel generalizing a hole with
  | zero => simp only [pushHeapLoop]; exact set_perm a hole v h
  | succ n ih =>
    simp only [pushHeapLoop]
    split_ifs with hc
    · have hp : (hole - 1) / 2 < (a.set hole (a.getD ((hole - 1) / 2) default)).length := by
        simp; omega
      have h1 := ih (a.set hole (a.getD ((hole - 1) / 2) default)) ((hole - 1) / 2) hp
      rw [getD_set_ne a hole ((hole - 1) / 2) _ (by omega)] at h1
      exact perm_step h1 (set_perm a hole _ h)
    · exact set_perm a hole v h

theorem heapUpTo_set (len hole : Nat) (f : Nat → Int) (x : Int) (hI : HoleInv len hole f)
    (hch : ∀ c, 0 < c → c < len → (c - 1) / 2 = hole → x ≤ f c)
    (hpar : 0 < hole → f ((hole - 1) / 2) ≤ x) :
    HeapUpTo len (Function.update f hole x) := by
  intro i hi hlt
  simp only [Function.update_apply]
  by_cases h1 : i = hole
  · subst h1
    have h2 : (i - 1) / 2 ≠ i := by omega
    simp only [h2, if_false, if_true]
    exact hpar hi
  · by_cases h2 : (i - 1) / 2 = hole
    · simp only [h1, h2, if_false, if_true]
      exact hch i hi hlt h2
    · simp only [h1, h2, if_false]
      exact hI.1 i hi hlt h1 h2

theorem holeInv_up (len hole : Nat) (f : Nat → Int) (x : Int) (hpos : 0 < hole)
    (hI : HoleInv len hole f)
    (hlt : x < f ((hole - 1) / 2)) (hlen : hole < len) :
    HoleInv len ((hole - 1) / 2) (Function.update f hole (f ((hole - 1) / 2))) ∧
    ∀ c, 0 < c → c < len → (c - 1) / 2 = (hole - 1) / 2 →
      x ≤ Function.update f hole (f ((hole - 1) / 2)) c := by
  refine ⟨⟨?_, ?_⟩, ?_⟩
  · intro i hi hil h1 h2
    simp only [Function.update_apply]
    by_cases h3 : i = hole
    · exact absurd (by rw [h3]) h2
    · by_cases h4 : (i - 1) / 2 = hole
      · simp only [h3, h4, if_false, if_true]
        exact hI.2 i hi hil h4 hpos
      · simp only [h3, h4, if_false]
        exact hI.1 i hi hil h3 h4
  · intro c hc hcl h1 h2
    simp only [Function.update_apply]
    have h3 : ((hole - 1) / 2 - 1) / 2 ≠ hole := by omega
    simp only [h3, if_false]
    by_cases h4 : c = hole
    · simp only [h4, if_true]
      exact hI.1 _ h2 (by omega) (by omega) h3
    · simp only [h4, if_false]
      have h5 : (c - 1) / 2 ≠ hole := by omega
      have h6 := hI.1 c hc hcl h4 h5
      have h7 := hI.1 _ h2 (by omega) (by omega) h3
      rw [h1] at h6
      exact le_trans h7 h6
  · intro c hc hcl h1
    simp only [Function.update_apply]
    by_cases h4 : c = hole
    · simp only [h4, if_true]; exact le_of_lt hlt
    · simp only [h4, if_false]
      have h5 : (c - 1) / 2 ≠ hole := by omega
      have h6 := hI.1 c hc hcl h4 h5
      rw [h1] at h6
      exact le_trans (le_of_lt hlt) h6

theorem pushHeapLoop_heap (len fuel : Nat) (a : List Pixel) (hole : Nat) (v : Pixel)
    (hf : hole ≤ fuel) (hl : hole < len) (hlen : len ≤ a.length)
    (hI : HoleInv len hole (keyOf a))
    (hch : ∀ c, 0 < c → c < len → (c - 1) / 2 = hole → v.value ≤ keyOf a c) :
    HeapUpTo len (keyOf (pushHeapLoop fuel a hole 0 v)) := by
  induction fuel generalizing a hole with
  | zero =>
    simp only [pushHeapLoop]
    rw [keyOf_set a hole v (by omega)]
    exact heapUpTo_set len hole _ _ hI hch (by omega)
  | succ n ih =>
    simp only [pushHeapLoop]
    split_ifs with hc
    · obtain ⟨hpos, hcmp⟩ := hc
      have hlt : v.value < keyOf a ((hole - 1) / 2) := by
        simpa [ComparePixels, keyOf] using hcmp
      have hs := holeInv_up len hole (keyOf a) v.value hpos hI hlt hl
      have hk : keyOf (a.set hole (a.getD ((hole - 1) / 2) default)) =
          Function.update (keyOf a) hole (keyOf a ((hole - 1) / 2)) :=
        keyOf_set a hole _ (by omega)
      apply ih _ _ (by omega) (by omega) (by simp; omega)
      · rw [hk]; exact hs.1
      · rw [hk]; exact hs.2
    · rw [keyOf_set a hole v (by omega)]
      apply heapUpTo_set len hole _ _ hI hch
      intro hpos
      have : ¬ (ComparePixels (a.getD ((hole - 1) / 2) default) v = true) :=
        fun h => hc ⟨hpos, h⟩
      simpa [ComparePixels, keyOf] using this

theorem heapUpTo_root_le (len : Nat) (f : Nat → Int) (h : HeapUpTo len f) :
    ∀ i, i < len → f 0 ≤ f i := by
  intro i
  induction i using Nat.strong_induction_on with
  | _ i ih =>
    intro hi
    by_cases h0 : i = 0
    · subst h0; exact le_refl _
    · have h1 := h i (by omega) hi
      have h2 := ih ((i - 1) / 2) (by omega) (by omega)
      exact le_trans h2 h1

theorem adjustLoop_length (fuel : Nat) (a : List Pixel) (hole len : Nat) :
    (adjustLoop fuel a hole len).1.length = a.length := by
  induction fuel generalizing a hole with
  | zero => simp [adjustLoop]
  | succ n ih =>
    simp only [adjustLoop]
    split_ifs <;> simp [ih]

theorem adjustLoop_hole_lt (fuel : Nat) (a : List Pixel) (hole len : Nat) (h : hole < len) :
    (adjustLoop fuel a hole len).2 < len := by
  induction fuel generalizing a hole with
  | zero => simpa [adjustLoop] using h
  | succ n ih =>
    simp only [adjustLoop]
    split_ifs
    · exact ih _ _ (by omega)
    · exact ih _ _ (by omega)
    · exact h

theorem adjustLoop_hole_ge (fuel : Nat) (a : List Pixel) (hole len : Nat)
    (h : len ≤ fuel + hole) : (len - 1) / 2 ≤ (adjustLoop fuel a hole len).2 := by
  induction fuel generalizing a hole with
  | zero => simp only [adjustLoop]; omega
  | succ n ih =>
    simp only [adjustLoop]
    split_ifs
    · exact ih _ _ (by omega)
    · exact ih _ _ (by omega)
    · omega

theorem adjustLoop_frame (fuel : Nat) (a : List Pixel) (hole len : Nat) (j : Nat)
    (hj : len ≤ j) (h : hole < len) :
    (adjustLoop fuel a hole len).1.getD j default = a.getD j default := by
  induction fuel generalizing a hole with
  | zero => simp [adjustLoop]
  | succ n ih =>
    simp only [adjustLoop]
    split_ifs
    · rw [ih _ _ (by omega)]; exact getD_set_ne a hole j _ (by omega)
    · rw [ih _ _ (by omega)]; exact getD_set_ne a hole j _ (by omega)
    · rfl

theorem adjustLoop_perm (fuel : Nat) (a : List Pixel) (hole len : Nat)
    (h : hole < len) (hlen : len ≤ a.length) :
    (a.getD hole default :: (adjustLoop fuel a hole len).1).Perm
      ((adjustLoop fuel a hole len).1.getD (adjustLoop fuel a hole len).2 default :: a) := by
  induction fuel generalizing a hole with
  | zero => simp [adjustLoop]
  | succ n ih =>
    simp only [adjustLoop]
    split_ifs with h1 h2
    · have h3 := ih (a.set hole (a.getD (2 * (hole + 1) - 1) default)) (2 * (hole + 1) - 1)
        (by omega) (by simp; omega)
      rw [getD_set_ne a hole (2 * (hole + 1) - 1) _ (by omega)] at h3
      exact perm_step h3 (set_perm a hole _ (by omega))
    · have h3 := ih (a.set hole (a.getD (2 * (hole + 1)) default)) (2 * (hole + 1))
        (by omega) (by simp; omega)
      rw [getD_set_ne a hole (2 * (hole + 1)) _ (by omega)] at h3
      exact perm_step h3 (set_perm a hole _ (by omega))
    · exact List.Perm.refl _

theorem holeInv_down (len hole c : Nat) (f : Nat → Int) (hI : HoleInv len hole f)
    (hc : (c - 1) / 2 = hole) (hc0 : 0 < c) (hcl : c < len)
    (hsib : ∀ d, 0 < d → d < len → (d - 1) / 2 = hole → f c ≤ f d) :
    HoleInv len c (Function.update f hole (f c)) := by
  refine ⟨?_, ?_⟩
  · intro i hi hil h1 h2
    simp only [Function.update_apply]
    by_cases h3 : i = hole
    · have h4 : (i - 1) / 2 ≠ hole := by omega
      simp only [h3, if_true]
      rw [h3] at h4
      simp only [h4, if_false]
      exact hI.2 c hc0 hcl hc (by omega)
    · by_cases h4 : (i - 1) / 2 = hole
      · simp only [h3, h4, if_false, if_true]
        exact hsib i hi hil h4
      · simp only [h3, h4, if_false]
        exact hI.1 i hi hil h3 h4
  · intro d hd hdl h1 h2
    simp only [Function.update_apply]
    have h3 : d ≠ hole := by omega
    have h4 : (c - 1) / 2 = hole := hc
    simp only [h3, h4, if_false, if_true]
    have h5 := hI.1 d hd hdl h3 (by omega)
    rw [h1] at h5
    exact h5

theorem adjustLoop_inv (fuel : Nat) (a : List Pixel) (hole len : Nat)
    (h : hole < len) (hlen : len ≤ a.length) (hI : HoleInv len hole (keyOf a)) :
    HoleInv len (adjustLoop fuel a hole len).2 (keyOf (adjustLoop fuel a hole len).1) := by
  induction fuel generalizing a hole with
  | zero => simpa [adjustLoop] using hI
  | succ n ih =>
    simp only [adjustLoop]
    split_ifs with h1 h2
    · have h2' : keyOf a (2 * (hole + 1) - 1) < keyOf a (2 * (hole + 1)) := by
        simpa [ComparePixels, keyOf] using h2
      apply ih _ _ (by omega) (by simp; omega)
      rw [keyOf_set a hole _ (by omega)]
      apply holeInv_down len hole _ (keyOf a) hI (by omega) (by omega) (by omega)
      intro d hd hdl hdp
      have : d = 2 * (hole + 1) - 1 ∨ d = 2 * (hole + 1) := by omega
      rcases this with e | e
      · rw [e]
      · rw [e]; exact le_of_lt h2'
    · have h2' : keyOf a (2 * (hole + 1)) ≤ keyOf a (2 * (hole + 1) - 1) := by
        simpa [ComparePixels, keyOf] using h2
      apply ih _ _ (by omega) (by simp; omega)
      rw [keyOf_set a hole _ (by omega)]
      apply holeInv_down len hole _ (keyOf a) hI (by omega) (by omega) (by omega)
      intro d hd hdl hdp
      have : d = 2 * (hole + 1) - 1 ∨ d = 2 * (hole + 1) := by omega
      rcases this with e | e
      · rw [e]; exact h2'
      · rw [e]
    · exact hI

theorem adjustLast_length (s : List Pixel × Nat) (len : Nat) :
    (adjustLast s len).1.length = s.1.length := by
  unfold adjustLast
  split_ifs <;> simp

theorem adjustLast_hole_lt (s : List Pixel × Nat) (len : Nat) (h : s.2 < len) :
    (adjustLast s len).2 < len := by
  unfold adjustLast
  split_ifs with h1
  · simp only; omega
  · exact h

theorem adjustLast_frame (s : List Pixel × Nat) (len j : Nat) (hj : len ≤ j) (h : s.2 < len) :
    (adjustLast s len).1.getD j default = s.1.getD j default := by
  unfold adjustLast
  split_ifs with h1
  · exact getD_set_ne s.1 s.2 j _ (by omega)
  · rfl

theorem adjustLast_perm (s : List Pixel × Nat) (len : Nat) (h : s.2 < len)
    (hlen : len ≤ s.1.length) :
    (s.1.getD s.2 default :: (adjustLast s len).1).Perm
      ((adjustLast s len).1.getD (adjustLast s len).2 default :: s.1) := by
  unfold adjustLast
  split_ifs with h1
  · simp only
    rw [getD_set_ne s.1 s.2 _ _ (by omega)]
    exact set_perm s.1 s.2 _ (by omega)
  · exact List.Perm.refl _

theorem adjustLast_inv (s : List Pixel × Nat) (len : Nat) (h : s.2 < len)
    (hlen : len ≤ s.1.length) (hge : (len - 1) / 2 ≤ s.2) (hI : HoleInv len s.2 (keyOf s.1)) :
    HoleInv len (adjustLast s len).2 (keyOf (adjustLast s len).1) ∧
    ∀ c, 0 < c → c < len → (c - 1) / 2 ≠ (adjustLast s len).2 := by
  unfold adjustLast
  split_ifs with h1
  · simp only
    refine ⟨?_, ?_⟩
    · rw [keyOf_set s.1 s.2 _ (by omega)]
      apply holeInv_down len s.2 _ (keyOf s.1) hI (by omega) (by omega) (by omega)
      intro d hd hdl hdp
      have : d = 2 * (s.2 + 1) - 1 := by omega
      rw [this]
    · intro c hc hcl
      omega
  · refine ⟨hI, ?_⟩
    intro c hc hcl
    omega

theorem adjust_heap_length (a : List Pixel) (len : Nat) (v : Pixel) :
    (adjust_heap a 0 len v).length = a.length := by
  unfold adjust_heap
  simp only
  rw [pushHeapLoop_length, adjustLast_length, adjustLoop_length]

theorem adjust_heap_frame (a : List Pixel) (len : Nat) (v : Pixel) (hpos : 0 < len)
    (j : Nat) (hj : len ≤ j) :
    (adjust_heap a 0 len v).getD j default = a.getD j default := by
  unfold adjust_heap
  simp only
  have h1 := adjustLoop_hole_lt len a 0 len hpos
  have h2 := adjustLast_hole_lt (adjustLoop len a 0 len) len h1
  rw [pushHeapLoop_frame _ _ _ _ _ j (by omega), adjustLast_frame _ _ _ hj h1,
    adjustLoop_frame _ _ _ _ _ hj hpos]

theorem adjust_heap_perm (a : List Pixel) (len : Nat) (v : Pixel) (hpos : 0 < len)
    (hlen : len ≤ a.length) :
    (a.getD 0 default :: adjust_heap a 0 len v).Perm (v :: a) := by
  unfold adjust_heap
  simp only
  have h1 := adjustLoop_hole_lt len a 0 len hpos
  have h2 := adjustLast_hole_lt (adjustLoop len a 0 len) len h1
  have l1 := adjustLoop_length len a 0 len
  have l2 := adjustLast_length (adjustLoop len a 0 len) len
  have p1 := adjustLoop_perm len a 0 len hpos hlen
  have p2 := adjustLast_perm (adjustLoop len a 0 len) len h1 (by omega)
  have p3 := pushHeapLoop_perm len (adjustLast (adjustLoop len a 0 len) len).1
    (adjustLast (adjustLoop len a 0 len) len).2 0 v (by omega)
  exact perm_step p3 (perm_step p2 p1)

theorem adjust_heap_heap (a : List Pixel) (len : Nat) (v : Pixel) (hpos : 0 < len)
    (hlen : len ≤ a.length) (hI : HoleInv len 0 (keyOf a)) :
    HeapUpTo len (keyOf (adjust_heap a 0 len v)) := by
  unfold adjust_heap
  simp only
  have h1 := adjustLoop_hole_lt len a 0 len hpos
  have h2 := adjustLast_hole_lt (adjustLoop len a 0 len) len h1
  have l1 := adjustLoop_length len a 0 len
  have l2 := adjustLast_length (adjustLoop len a 0 len) len
  have g1 := adjustLoop_hole_ge len a 0 len (by omega)
  have i1 := adjustLoop_inv len a 0 len hpos hlen hI
  have i2 := adjustLast_inv (adjustLoop len a 0 len) len h1 (by omega) g1 i1
  apply pushHeapLoop_heap len len _ _ v (by omega) h2 (by omega) i2.1
  intro c hc hcl hcp
  exact absurd hcp (i2.2 c hc hcl)

/-! ## The queue operations -/

theorem keyOf_append_left (c l : List Pixel) (i : Nat) (h : i < c.length) :
    keyOf (c ++ l) i = keyOf c i := by
  simp [keyOf, List.getD_eq_getElem?_getD, List.getElem?_append_left h]

theorem getD_dropLast (a : List Pixel) (i : Nat) (h : i < a.length - 1) :
    a.dropLast.getD i default = a.getD i default := by
  have h1 : i < a.dropLast.length := by simpa using h
  have h2 : i < a.length := by omega
  simp [List.getD_eq_getElem?_getD, List.getElem?_eq_getElem h1, List.getElem?_eq_getElem h2]

theorem isHeap_nil : IsHeap [] := by
  intro i _ h
  simp at h

theorem pqPush_length (c : List Pixel) (x : Pixel) : (pqPush c x).length = c.length + 1 := by
  simp [pqPush, push_heap, pushHeapLoop_length]

theorem pqPush_perm (c : List Pixel) (x : Pixel) : (pqPush c x).Perm (x :: c) := by
  unfold pqPush push_heap
  have hl : (c ++ [x]).length - 1 = c.length := by simp
  have hx : (c ++ [x]).getD c.length default = x := by
    simp [List.getD_eq_getElem?_getD]
  rw [hl, hx]
  have h := pushHeapLoop_perm (c ++ [x]).length (c ++ [x]) c.length 0 x (by simp)
  rw [hx] at h
  exact h.cons_inv.trans (List.perm_append_singleton x c)

theorem pqPush_heap (c : List Pixel) (x : Pixel) (h : IsHeap c) : IsHeap (pqPush c x) := by
  unfold IsHeap
  rw [pqPush_length]
  unfold pqPush push_heap
  have hl : (c ++ [x]).length - 1 = c.length := by simp
  have hn : (c ++ [x]).length = c.length + 1 := by simp
  rw [hl, hn]
  apply pushHeapLoop_heap (c.length + 1) (c.length + 1) _ _ _ (by omega) (by omega)
    (by simp)
  · refine ⟨?_, ?_⟩
    · intro i hi hil h1 h2
      rw [keyOf_append_left c [x] i (by omega), keyOf_append_left c [x] _ (by omega)]
      exact h i hi (by omega)
    · intro d hd hdl h1 h2
      omega
  · intro d hd hdl h1
    omega

theorem pqPop_nil : pqPop [] = [] := by
  simp [pqPop, pop_heap]

theorem pop_heap_length (a : List Pixel) : (pop_heap a).length = a.length := by
  unfold pop_heap
  split_ifs with h
  · simp only
    rw [adjust_heap_length]; simp
  · rfl

theorem pqPop_length (a : List Pixel) : (pqPop a).length = a.length - 1 := by
  simp [pqPop, pop_heap_length]

theorem pop_heap_spec (t : Pixel) (rest : List Pixel) :
    (pop_heap (t :: rest)).Perm (t :: rest) ∧
    (pop_heap (t :: rest)).getD rest.length default = t ∧
    (IsHeap (t :: rest) → HeapUpTo rest.length (keyOf (pop_heap (t :: rest)))) := by
  unfold pop_heap
  split_ifs with h
  · have hlen : (t :: rest).length - 1 = rest.length := by simp
    have hpos : 0 < rest.length := by simpa using h
    simp only [hlen, List.getD_cons_zero]
    have hs : rest.length < (t :: rest).length := by simp
    have hl2 : rest.length ≤ ((t :: rest).set rest.length t).length := by simp
    have h0 : ((t :: rest).set rest.length t).getD 0 default = t := by
      rw [getD_set_ne _ _ _ _ (by omega)]; rfl
    refine ⟨?_, ?_, ?_⟩
    · have p1 := adjust_heap_perm ((t :: rest).set rest.length t) rest.length
        ((t :: rest).getD rest.length default) hpos hl2
      rw [h0] at p1
      have p2 := set_perm (t :: rest) rest.length t hs
      exact (p1.trans p2).cons_inv
    · rw [adjust_heap_frame _ _ _ hpos _ (le_refl _)]
      exact getD_set_eq _ _ _ hs
    · intro hh
      apply adjust_heap_heap _ _ _ hpos hl2
      rw [keyOf_set _ _ _ hs]
      refine ⟨?_, ?_⟩
      · intro i hi hil h1 h2
        simp only [Function.update_apply]
        have e1 : i ≠ rest.length := by omega
        have e2 : (i - 1) / 2 ≠ rest.length := by omega
        simp only [e1, e2, if_false]
        exact hh i hi (by simp; omega)
      · intro d _ _ _ h2
        omega
  · have hr : rest = [] := by
      cases rest with
      | nil => rfl
      | cons y ys => simp at h
    subst hr
    refine ⟨List.Perm.refl _, by simp, ?_⟩
    intro _ i _ hi
    simp at hi

theorem pqPop_perm (t : Pixel) (rest : List Pixel) :
    (t :: pqPop (t :: rest)).Perm (t :: rest) := by
  obtain ⟨hp, hlast, _⟩ := pop_heap_spec t rest
  have hl := pop_heap_length (t :: rest)
  have hne : pop_heap (t :: rest) ≠ [] := by
    intro e; rw [e] at hl; simp at hl
  have hgl : (pop_heap (t :: rest)).getLast hne = t := by
    rw [List.getLast_eq_getElem]
    have hi : (pop_heap (t :: rest)).length - 1 < (pop_heap (t :: rest)).length := by
      rw [hl]; simp
    have e : (pop_heap (t :: rest)).length - 1 = rest.length := by rw [hl]; simp
    have := hlast
    rw [List.getD_eq_getElem?_getD, ← e, List.getElem?_eq_getElem hi] at this
    simpa using this
  have hd := List.dropLast_append_getLast hne
  rw [hgl] at hd
  unfold pqPop
  have : (t :: (pop_heap (t :: rest)).dropLast).Perm (pop_heap (t :: rest)) := by
    conv => rhs; rw [← hd]
    exact (List.perm_append_singleton t _).symm
  exact this.trans hp

theorem pqPop_heap (a : List Pixel) (h : IsHeap a) : IsHeap (pqPop a) := by
  cases a with
  | nil => rw [pqPop_nil]; exact isHeap_nil
  | cons t rest =>
    obtain ⟨_, _, hh⟩ := pop_heap_spec t rest
    have hl := pop_heap_length (t :: rest)
    unfold IsHeap
    rw [pqPop_length]
    simp only [List.length_cons, Nat.add_sub_cancel]
    intro i hi hil
    unfold pqPop
    unfold keyOf
    rw [getD_dropLast _ _ (by rw [hl]; simp; omega), getD_dropLast _ _ (by rw [hl]; simp; omega)]
    exact hh h i hi hil

theorem heap_top_le (t : Pixel) (rest : List Pixel) (h : IsHeap (t :: rest)) :
    ∀ y ∈ t :: rest, t.value ≤ y.value := by
  intro y hy
  obtain ⟨i, hi, rfl⟩ := List.mem_iff_getElem.mp hy
  have := heapUpTo_root_le _ _ h i hi
  simpa [keyOf, List.getD_eq_getElem?_getD, List.getElem?_eq_getElem hi] using this

/-! ## The bounded queue under `offer` -/

theorem topInv_nil : TopInv [] [] :=
  ⟨isHeap_nil, by simp, [], by simp, by simp⟩

theorem topInv_offer (h xs : List Pixel) (p : Pixel) (hI : TopInv h xs) :
    TopInv (offer h p) (xs ++ [p]) := by
  obtain ⟨hh, hlen, ev, hperm, hle⟩ := hI
  have hpl := pqPush_length h p
  have hpp := pqPush_perm h p
  have hph := pqPush_heap h p hh
  have hxl : h.length + ev.length = xs.length := by
    have := hperm.length_eq
    simpa using this
  unfold offer
  simp only
  split_ifs with hc
  · -- the queue was full: the top of the 51 entries is evicted
    have h50 : h.length = 50 := by omega
    cases hq : pqPush h p with
    | nil => rw [hq] at hpl; simp at hpl
    | cons t rest =>
      rw [hq] at hpp hph
      have hpop := pqPop_perm t rest
      have htop := heap_top_le t rest hph
      have hpopl : (pqPop (t :: rest)).length = 50 := by
        rw [pqPop_length, ← hq, hpl, h50]
      refine ⟨pqPop_heap _ hph, ?_, t :: ev, ?_, ?_⟩
      · rw [hpopl]; simp; omega
      · have e1 : (pqPop (t :: rest) ++ t :: ev).Perm (t :: pqPop (t :: rest) ++ ev) :=
          List.perm_middle
        have e2 : (t :: pqPop (t :: rest) ++ ev).Perm (p :: h ++ ev) :=
          List.Perm.append_right ev (hpop.trans hpp)
        have e3 : (p :: h ++ ev).Perm (xs ++ [p]) :=
          ((hperm.cons p).trans (List.perm_append_singleton p xs).symm)
        exact e1.trans (e2.trans e3)
      · intro c hcm e hem
        have hem2 : e ∈ t :: rest := hpop.subset (List.mem_cons_of_mem t hem)
        rcases List.mem_cons.mp hcm with rfl | hcE
        · exact htop e hem2
        · by_contra hlt
          have hlt : e.value < c.value := lt_of_not_le hlt
          -- count the entries strictly below `c`
          have hcnt := (hpop.trans hpp).countP_eq (fun x => decide (x.value < c.value))
          have hz : h.countP (fun x => decide (x.value < c.value)) = 0 := by
            rw [List.countP_eq_zero]
            intro x hx
            have := hle c hcE x hx
            simp; exact this
          have htlt : t.value < c.value := lt_of_le_of_lt (htop e hem2) hlt
          have hpos : 0 < (pqPop (t :: rest)).countP (fun x => decide (x.value < c.value)) := by
            rw [List.countP_pos_iff]
            exact ⟨e, hem, by simpa using hlt⟩
          have hub : (p :: h).countP (fun x => decide (x.value < c.value)) ≤ 1 := by
            rw [List.countP_cons, hz]
            split_ifs <;> simp
          rw [List.countP_cons_of_pos _ _ (by simpa using htlt)] at hcnt
          omega
  · -- the queue was not full: nothing is evicted
    have hlt : h.length < 50 := by omega
    have hev : ev = [] := by
      apply List.eq_nil_of_length_eq_zero
      omega
    subst hev
    refine ⟨hph, ?_, [], ?_, by simp⟩
    · rw [hpl]; simp; omega
    · simp only [List.append_nil] at hperm ⊢
      exact hpp.trans ((hperm.cons p).trans (List.perm_append_singleton p xs).symm)

theorem topInv_foldl (ys h xs : List Pixel) (hI : TopInv h xs) :
    TopInv (ys.foldl offer h) (xs ++ ys) := by
  induction ys generalizing h xs with
  | nil => simpa using hI
  | cons y ys ih =>
    have := ih (offer h y) (xs ++ [y]) (topInv_offer h xs y hI)
    simpa using this

theorem topInv_run (ys : List Pixel) : TopInv (ys.foldl offer []) ys := by
  simpa using topInv_foldl ys [] [] topInv_nil

/-! ## Draining -/

theorem drainLoop_spec (fuel : Nat) (h res : List Pixel) (hf : h.length ≤ fuel)
    (hh : IsHeap h) :
    ∃ d, drainLoop fuel h res = res ++ d ∧ d.Perm h ∧
      d.Pairwise (fun a b => a.value ≤ b.value) := by
  induction fuel generalizing h res with
  | zero =>
    have : h = [] := List.eq_nil_of_length_eq_zero (by omega)
    subst this
    exact ⟨[], by simp [drainLoop], List.Perm.refl _, List.Pairwise.nil⟩
  | succ n ih =>
    cases h with
    | nil => exact ⟨[], by simp [drainLoop], List.Perm.refl _, List.Pairwise.nil⟩
    | cons t rest =>
      have hl : (pqPop (t :: rest)).length ≤ n := by
        rw [pqPop_length]; simp at hf ⊢; omega
      obtain ⟨d, hd, hp, hs⟩ := ih (pqPop (t :: rest)) (res ++ [t]) hl (pqPop_heap _ hh)
      have hpop := pqPop_perm t rest
      refine ⟨t :: d, ?_, ?_, ?_⟩
      · simp only [drainLoop]; rw [hd]; simp
      · exact (hp.cons t).trans hpop
      · rw [List.pairwise_cons]
        refine ⟨?_, hs⟩
        intro y hy
        have : y ∈ t :: rest := hpop.subset (List.mem_cons_of_mem t (hp.subset hy))
        exact heap_top_le t rest hh y this

theorem drainLoop_acc (fuel : Nat) (h res : List Pixel) :
    drainLoop fuel h res = res ++ drainLoop fuel h [] := by
  induction fuel generalizing h res with
  | zero => simp [drainLoop]
  | succ n ih =>
    cases h with
    | nil => simp [drainLoop]
    | cons t rest =>
      simp only [drainLoop]
      rw [ih _ (res ++ [t]), ih _ ([] ++ [t])]
      simp

theorem drainLoopAsync_eq (fuel : Nat) (h res : List Pixel) :
    drainLoopAsync fuel h res = res ++ (drainLoop fuel h []).take (51 - res.length) := by
  induction fuel generalizing h res with
  | zero => simp [drainLoopAsync, drainLoop]
  | succ n ih =>
    cases h with
    | nil => simp [drainLoopAsync, drainLoop]
    | cons t rest =>
      simp only [drainLoopAsync, drainLoop]
      split_ifs with hc
      · rw [ih, drainLoop_acc _ _ ([] ++ [t])]
        have : 51 - res.length = (51 - (res ++ [t]).length) + 1 := by simp; omega
        rw [this]
        simp
      · have : 51 - res.length = 0 := by omega
        rw [this]; simp

theorem mergeLoop_spec (fuel : Nat) (m l : List Pixel) (hf : l.length ≤ fuel)
    (hm : IsHeap m) :
    IsHeap (mergeLoop fuel m l) ∧ (mergeLoop fuel m l).Perm (m ++ l) := by
  induction fuel generalizing m l with
  | zero =>
    have : l = [] := List.eq_nil_of_length_eq_zero (by omega)
    subst this
    simpa [mergeLoop] using hm
  | succ n ih =>
    cases l with
    | nil => simpa [mergeLoop] using hm
    | cons t rest =>
      simp only [mergeLoop]
      have hl : (pqPop (t :: rest)).length ≤ n := by
        rw [pqPop_length]; simp at hf ⊢; omega
      obtain ⟨h1, h2⟩ := ih (pqPush m t) (pqPop (t :: rest)) hl (pqPush_heap m t hm)
      refine ⟨h1, h2.trans ?_⟩
      have e1 : (pqPush m t ++ pqPop (t :: rest)).Perm (t :: m ++ pqPop (t :: rest)) :=
        List.Perm.append_right _ (pqPush_perm m t)
      have e2 : (t :: m ++ pqPop (t :: rest)).Perm (m ++ t :: pqPop (t :: rest)) :=
        List.perm_middle.symm
      exact e1.trans (e2.trans (List.Perm.append_left m (pqPop_perm t rest)))

/-! ## Offers of a chunk and cells of the image -/

theorem rowOffers_length (r : Int) (l : List Int) (j : Int) :
    (rowOffers r l j).length = l.length := by
  induction l generalizing j with
  | nil => rfl
  | cons v vs ih => simp [rowOffers, ih]

theorem chunkOffers_length (s : Int) (l : List (List Int)) (i : Int) :
    (chunkOffers s l i).length = cellCount l := by
  induction l generalizing i with
  | nil => rfl
  | cons r rest ih => simp [chunkOffers, cellCount, rowOffers_length, ih] at *

theorem allCells_length (image : List (List Int)) : (allCells image).length = cellCount image :=
  chunkOffers_length 0 image 0

theorem chunkOffers_shift (s : Int) (l : List (List Int)) (i : Int) :
    chunkOffers s l i = chunkOffers 0 l (s + i) := by
  induction l generalizing i with
  | nil => rfl
  | cons r rest ih =>
    simp only [chunkOffers]
    rw [ih (i + 1), zero_add, add_assoc]

theorem chunkOffers_append (s : Int) (l1 l2 : List (List Int)) (i : Int) :
    chunkOffers s (l1 ++ l2) i = chunkOffers s l1 i ++ chunkOffers s l2 (i + l1.length) := by
  induction l1 generalizing i with
  | nil => simp [chunkOffers]
  | cons r rest ih =>
    rw [List.cons_append]
    simp only [chunkOffers]
    rw [ih (i + 1), List.append_assoc]
    have e : i + 1 + (rest.length : Int) = i + ((r :: rest).length : Int) := by
      simp only [List.length_cons]; push_cast; ring
    rw [e]

theorem mem_rowOffers (r : Int) (l : List Int) (j : Int) (p : Pixel) :
    p ∈ rowOffers r l j ↔ ∃ c : Nat, l[c]? = some p.value ∧ p.row = r ∧ p.col = j + c := by
  induction l generalizing j with
  | nil => simp [rowOffers]
  | cons v vs ih =>
    simp only [rowOffers, List.mem_cons, ih]
    constructor
    · rintro (rfl | ⟨c, h1, h2, h3⟩)
      · exact ⟨0, by simp⟩
      · exact ⟨c + 1, by simpa using h1, h2, by rw [h3]; push_cast; ring⟩
    · rintro ⟨c, h1, h2, h3⟩
      cases c with
      | zero =>
        left
        cases p
        simp at h1 h2 h3
        simp [h1, h2, h3]
      | succ k =>
        right
        exact ⟨k, by simpa using h1, h2, by rw [h3]; push_cast; ring⟩

theorem mem_chunkOffers (s : Int) (l : List (List Int)) (i : Int) (p : Pixel) :
    p ∈ chunkOffers s l i ↔
      ∃ (k c : Nat) (rowl : List Int), l[k]? = some rowl ∧ rowl[c]? = some p.value ∧
        p.row = s + i + k ∧ p.col = c := by
  induction l generalizing i with
  | nil => simp [chunkOffers]
  | cons r rest ih =>
    simp only [chunkOffers, List.mem_append, ih, mem_rowOffers]
    constructor
    · rintro (⟨c, h1, h2, h3⟩ | ⟨k, c, rowl, h1, h2, h3, h4⟩)
      · exact ⟨0, c, r, by simp, h1, by simpa using h2, by simpa using h3⟩
      · exact ⟨k + 1, c, rowl, by simpa using h1, h2, by rw [h3]; push_cast; ring, h4⟩
    · rintro ⟨k, c, rowl, h1, h2, h3, h4⟩
      cases k with
      | zero =>
        left
        simp at h1
        subst h1
        exact ⟨c, h2, by simpa using h3, by simpa using h4⟩
      | succ k =>
        right
        exact ⟨k, c, rowl, by simpa using h1, h2, by rw [h3]; push_cast; ring, h4⟩

theorem cellAt_iff (image : List (List Int)) (r c : Nat) (v : Int) :
    cellAt image r c v ↔ ∃ rowl, image[r]? = some rowl ∧ rowl[c]? = some v := by
  unfold cellAt
  rw [Option.bind_eq_some]

theorem mem_allCells (image : List (List Int)) (p : Pixel) :
    p ∈ allCells image ↔ ∃ r c : Nat, cellAt image r c p.value ∧ p.row = r ∧ p.col = c := by
  simp only [cellAt_iff]
  unfold allCells
  rw [mem_chunkOffers]
  constructor
  · rintro ⟨k, c, rowl, h1, h2, h3, h4⟩
    exact ⟨k, c, ⟨rowl, h1, h2⟩, by simpa using h3, h4⟩
  · rintro ⟨k, c, ⟨rowl, h1, h2⟩, h3, h4⟩
    exact ⟨k, c, rowl, h1, h2, by simpa using h3, h4⟩

/-! ## Interleavings -/

theorem flatten_set_perm (qs : List (List Pixel)) (w : Nat) (p : Pixel) (rest : List Pixel)
    (h : qs.getD w [] = p :: rest) : (p :: (qs.set w rest).flatten).Perm qs.flatten := by
  induction qs generalizing w with
  | nil => simp at h
  | cons q qs ih =>
    cases w with
    | zero =>
      simp at h
      subst h
      simp
    | succ k =>
      simp only [List.getD_cons_succ] at h
      simp only [List.set_cons_succ, List.flatten_cons]
      have e : (p :: (q ++ (qs.set k rest).flatten)).Perm (q ++ p :: (qs.set k rest).flatten) :=
        List.perm_middle.symm
      exact e.trans (List.Perm.append_left q (ih k h))

theorem interleave_perm (qs : List (List Pixel)) (sched : List Nat) :
    (interleave qs sched).Perm qs.flatten := by
  induction sched generalizing qs with
  | nil => simp [interleave]
  | cons w sched ih =>
    simp only [interleave]
    split
    · exact ih qs
    · next p rest hq =>
      exact ((ih (qs.set w rest)).cons p).trans (flatten_set_perm qs w p rest hq)

/-! ## The row ranges -/

theorem wrapInt32_of_range (x : Int) (h0 : -2147483648 ≤ x) (h1 : x < 2147483648) :
    wrapInt32 x = x := by
  unfold wrapInt32
  rw [Int.emod_eq_of_lt (by omega) (by omega)]
  omega

theorem rowsOf_of_lt (image : List (List Int)) (h : image.length < 2147483648) :
    rowsOf image = (image.length : Int) := by
  unfold rowsOf
  exact wrapInt32_of_range _ (by omega) (by omega)

theorem startRowOf_natCast (i H N : Nat) (h : i * H < 2147483648) :
    startRowOf (i : Int) (H : Int) (N : Int) = ((i * H / N : Nat) : Int) := by
  unfold startRowOf
  rw [wrapInt32_of_range _ (le_trans (by norm_num) (by positivity : (0 : Int) ≤ _))
    (by exact_mod_cast h), Int.ofNat_tdiv]
  push_cast
  rfl

theorem endRowOf_natCast (i H N : Nat) (h : (i + 1) * H < 2147483648) :
    endRowOf (i : Int) (H : Int) (N : Int) = (((i + 1) * H / N : Nat) : Int) := by
  unfold endRowOf
  rw [wrapInt32_of_range _ (le_trans (by norm_num) (by positivity : (0 : Int) ≤ _))
    (by exact_mod_cast h), Int.ofNat_tdiv]
  push_cast
  rfl

theorem endRowOf_eq_startRowOf (i rows numThreads : Int) :
    endRowOf i rows numThreads = startRowOf (i + 1) rows numThreads := rfl

theorem cut_last (H N : Nat) (hN : 0 < N) : N * H / N = H :=
  Nat.mul_div_cancel_left H hN

theorem cut_mono (H N i j : Nat) (h : i ≤ j) : i * H / N ≤ j * H / N :=
  Nat.div_le_div_right (Nat.mul_le_mul_right H h)

theorem cut_le (H N i : Nat) (hN : 0 < N) (h : i ≤ N) : i * H / N ≤ H := by
  have := cut_mono H N i N h
  rwa [cut_last H N hN] at this

theorem cut_size (H N i : Nat) (hN : 0 < N) :
    (i + 1) * H / N - i * H / N = H / N ∨
      (i + 1) * H / N - i * H / N = (H + N - 1) / N := by
  have hH : H = N * (H / N) + H % N := (Nat.div_add_mod H N).symm
  have hr : H % N < N := Nat.mod_lt H hN
  generalize H / N = q at hH
  generalize H % N = r at hH hr
  have e1 : (i + 1) * H = (i * H + r) + q * N := by rw [hH]; ring
  have e2 : (i + 1) * H / N = (i * H + r) / N + q := by
    rw [e1, Nat.add_mul_div_right _ _ hN]
  have lo : i * H / N ≤ (i * H + r) / N := Nat.div_le_div_right (Nat.le_add_right _ _)
  have hi : (i * H + r) / N ≤ i * H / N + 1 := by
    have : (i * H + r) / N ≤ (i * H + N) / N :=
      Nat.div_le_div_right (by omega)
    rwa [Nat.add_div_right _ hN] at this
  have e3 : H + N - 1 = (r + N - 1) + q * N := by rw [hH]; ring_nf; omega
  have e4 : (H + N - 1) / N = (r + N - 1) / N + q := by
    rw [e3, Nat.add_mul_div_right _ _ hN]
  by_cases hr0 : r = 0
  · subst hr0
    left
    rw [e2]; simp
  · have e6 : (r + N - 1) / N = 1 := by
      have : r + N - 1 = (r - 1) + N := by omega
      rw [this, Nat.add_div_right _ hN, Nat.div_eq_of_lt (by omega)]
    rcases Nat.lt_or_ge (i * H / N) ((i * H + r) / N) with h | h
    · right; rw [e2, e4, e6]; omega
    · left; rw [e2]; omega

/-! ## The dispatch loop -/

theorem dispatch_succ {β : Type} (w : List (List Int) → Int → Int → β)
    (image : List (List Int)) (numThreads : Int) (n : Nat) (i : Int) :
    dispatch w image numThreads (n + 1) i =
      match chunkRows image (startRowOf i (rowsOf image) numThreads)
          (endRowOf i (rowsOf image) numThreads) with
      | none => none
      | some chunk =>
        match dispatch w image numThreads n (i + 1) with
        | none => none
        | some rest =>
          some (w chunk (startRowOf i (rowsOf image) numThreads)
            (endRowOf i (rowsOf image) numThreads) :: rest) := rfl

theorem dispatch_map {β γ : Type} (f : β → γ) (w : List (List Int) → Int → Int → β)
    (image : List (List Int)) (numThreads : Int) (n : Nat) (i : Int) :
    dispatch (fun c s e => f (w c s e)) image numThreads n i =
      (dispatch w image numThreads n i).map (List.map f) := by
  induction n generalizing i with
  | zero => simp [dispatch]
  | succ n ih =>
    simp only [dispatch]
    cases chunkRows image (startRowOf i (rowsOf image) numThreads)
        (endRowOf i (rowsOf image) numThreads) with
    | none => simp
    | some chunk =>
      simp only [ih (i + 1)]
      cases dispatch w image numThreads n (i + 1) <;> simp

theorem dispatch_length {β : Type} (w : List (List Int) → Int → Int → β)
    (image : List (List Int)) (numThreads : Int) (n : Nat) (i : Int) (qs : List β)
    (h : dispatch w image numThreads n i = some qs) : qs.length = n := by
  induction n generalizing i qs with
  | zero =>
    simp only [dispatch, Option.some.injEq] at h
    subst h
    rfl
  | succ n ih =>
    simp only [dispatch] at h
    cases hc : chunkRows image (startRowOf i (rowsOf image) numThreads)
        (endRowOf i (rowsOf image) numThreads) with
    | none => rw [hc] at h; simp at h
    | some chunk =>
      rw [hc] at h
      cases hr : dispatch w image numThreads n (i + 1) with
      | none => rw [hr] at h; simp at h
      | some rest =>
        rw [hr] at h
        simp only [Option.some.injEq] at h
        subst h
        simp [ih (i + 1) rest hr]

theorem dispatch_none_of_bad {β : Type} (w : List (List Int) → Int → Int → β)
    (image : List (List Int)) (numThreads : Int) (n k : Nat) (i : Int) (hk : k < n)
    (hbad : chunkRows image (startRowOf (i + k) (rowsOf image) numThreads)
      (endRowOf (i + k) (rowsOf image) numThreads) = none) :
    dispatch w image numThreads n i = none := by
  induction n generalizing i k with
  | zero => omega
  | succ n ih =>
    simp only [dispatch]
    cases k with
    | zero =>
      simp only [Nat.cast_zero, add_zero] at hbad
      rw [hbad]
    | succ k =>
      have hi : i + ((k + 1 : Nat) : Int) = i + 1 + (k : Int) := by push_cast; ring
      rw [hi] at hbad
      rw [ih k (i + 1) (by omega) hbad]
      cases chunkRows image (startRowOf i (rowsOf image) numThreads)
        (endRowOf i (rowsOf image) numThreads) <;> rfl

theorem segment_append (image : List (List Int)) (a b c : Nat) (hab : a ≤ b) (hbc : b ≤ c)
    (hc : c ≤ image.length) :
    chunkOffers 0 ((image.drop a).take (b - a)) a ++
        chunkOffers 0 ((image.drop b).take (c - b)) b =
      chunkOffers 0 ((image.drop a).take (c - a)) a := by
  have hsplit : (image.drop a).take (c - a) =
      (image.drop a).take (b - a) ++ (image.drop b).take (c - b) := by
    have e1 : c - a = (b - a) + (c - b) := by omega
    rw [e1, List.take_add, List.drop_drop]
    congr 3
    omega
  rw [hsplit, chunkOffers_append]
  congr 2
  rw [List.length_take, List.length_drop]
  omega

theorem segment_split (image : List (List Int)) (a b : Nat) (hab : a ≤ b)
    (hb : b ≤ image.length) :
    allCells image = chunkOffers 0 (image.take a) 0 ++
      chunkOffers 0 ((image.drop a).take (b - a)) a ++ chunkOffers 0 (image.drop b) b := by
  have h1 := segment_append image 0 a b (Nat.zero_le _) hab hb
  have h2 := segment_append image 0 b image.length (Nat.zero_le _) hb (le_refl _)
  simp only [List.drop_zero, Nat.sub_zero, Nat.cast_zero, List.take_length] at h1 h2
  have h3 : (image.drop b).take (image.length - b) = image.drop b :=
    List.take_of_length_le (by simp)
  rw [h3] at h2
  unfold allCells
  rw [← h2, ← h1]

/-- Whatever the arithmetic did, the chunks of a dispatch loop that ran to its end are
consecutive runs of rows of the image. -/
theorem dispatch_segment (image : List (List Int)) (numThreads : Int) (n : Nat) (i : Int)
    (qs : List (List Pixel))
    (h : dispatch workerOffers image numThreads n i = some qs) :
    ∃ a b : Nat, a ≤ b ∧ b ≤ image.length ∧
      (n ≠ 0 → (a : Int) = startRowOf i (rowsOf image) numThreads) ∧
      qs.flatten = chunkOffers 0 ((image.drop a).take (b - a)) a := by
  induction n generalizing i qs with
  | zero =>
    simp only [dispatch, Option.some.injEq] at h
    subst h
    exact ⟨0, 0, le_refl _, Nat.zero_le _, fun h => absurd rfl h, by simp [chunkOffers]⟩
  | succ n ih =>
    simp only [dispatch] at h
    cases hc : chunkRows image (startRowOf i (rowsOf image) numThreads)
        (endRowOf i (rowsOf image) numThreads) with
    | none => rw [hc] at h; simp at h
    | some chunk =>
      rw [hc] at h
      cases hr : dispatch workerOffers image numThreads n (i + 1) with
      | none => rw [hr] at h; simp at h
      | some rest =>
        rw [hr] at h
        simp only [Option.some.injEq] at h
        subst h
        obtain ⟨a', b', hab, hb, ha', hf⟩ := ih (i + 1) rest hr
        unfold chunkRows at hc
        split at hc
        · rename_i hcond
          obtain ⟨h0, h1, h2⟩ := hcond
          simp only [Option.some.injEq] at hc
          subst hc
          obtain ⟨s, hs⟩ := Int.eq_ofNat_of_zero_le h0
          obtain ⟨e, he⟩ := Int.eq_ofNat_of_zero_le (le_trans h0 h1)
          rw [hs] at h1
          rw [he] at h1 h2
          have hse : s ≤ e := by exact_mod_cast h1
          have hel : e ≤ image.length := by exact_mod_cast h2
          have hsub : ((e : Int) - (s : Int)).toNat = e - s := by omega
          have hw : workerOffers ((image.drop (s : Int).toNat).take ((e : Int) - (s : Int)).toNat)
              (s : Int) (e : Int) = chunkOffers 0 ((image.drop s).take (e - s)) s := by
            unfold workerOffers
            rw [chunkOffers_shift, add_zero, Int.toNat_ofNat, hsub]
          rw [List.flatten_cons, hs, he, hw]
          cases n with
          | zero =>
            simp only [dispatch, Option.some.injEq] at hr
            subst hr
            exact ⟨s, e, hse, hel, fun _ => rfl, by simp⟩
          | succ m =>
            have ha : (a' : Int) = (e : Int) := by
              rw [ha' (Nat.succ_ne_zero m), ← he]
              rfl
            have ha2 : a' = e := by exact_mod_cast ha
            subst ha2
            refine ⟨s, b', le_trans hse hab, hb, fun _ => rfl, ?_⟩
            rw [hf]
            exact segment_append image s a' b' hse hab hb
        · simp at hc

theorem dispatch_rest (image : List (List Int)) (numThreads : Int) (n : Nat) (i : Int)
    (qs : List (List Pixel))
    (h : dispatch workerOffers image numThreads n i = some qs) :
    ∃ rest : List Pixel, (qs.flatten ++ rest).Perm (allCells image) := by
  obtain ⟨a, b, hab, hb, _, hf⟩ := dispatch_segment image numThreads n i qs h
  refine ⟨chunkOffers 0 (image.take a) 0 ++ chunkOffers 0 (image.drop b) b, ?_⟩
  rw [segment_split image a b hab hb, hf, List.append_assoc]
  exact (List.perm_append_comm).trans (by
    rw [List.append_assoc]
    exact List.Perm.append_left _ List.perm_append_comm)

theorem dispatch_workerOffers (image : List (List Int)) (N : Nat) (hN : 0 < N)
    (hB : N * image.length < 2147483648) (n i : Nat) (h : i + n = N) :
    ∃ qs, dispatch workerOffers image (N : Int) n (i : Int) = some qs ∧ qs.length = n ∧
      qs.flatten = chunkOffers 0 (image.drop (i * image.length / N))
        ((i * image.length / N : Nat) : Int) := by
  have hlen : image.length < 2147483648 :=
    lt_of_le_of_lt (Nat.le_mul_of_pos_left _ hN) hB
  induction n generalizing i with
  | zero =>
    have hi : i = N := by omega
    subst hi
    refine ⟨[], by simp [dispatch], rfl, ?_⟩
    rw [cut_last _ _ hN]
    simp [chunkOffers]
  | succ n ih =>
    obtain ⟨rest, hr, hrl, hrf⟩ := ih (i + 1) (by omega)
    have hm := cut_mono image.length N i (i + 1) (by omega)
    have hle := cut_le image.length N (i + 1) hN (by omega)
    have hb1 : (i + 1) * image.length < 2147483648 :=
      lt_of_le_of_lt (Nat.mul_le_mul_right _ (by omega)) hB
    have hb0 : i * image.length < 2147483648 :=
      lt_of_le_of_lt (Nat.mul_le_mul_right _ (by omega)) hB
    rw [dispatch_succ, rowsOf_of_lt image hlen, startRowOf_natCast _ _ _ hb0,
      endRowOf_natCast _ _ _ hb1]
    have hcond : (0 : Int) ≤ ((i * image.length / N : Nat) : Int) ∧
        ((i * image.length / N : Nat) : Int) ≤ (((i + 1) * image.length / N : Nat) : Int) ∧
        (((i + 1) * image.length / N : Nat) : Int) ≤ (image.length : Int) := by
      refine ⟨by positivity, by exact_mod_cast hm, by exact_mod_cast hle⟩
    simp only [chunkRows, if_pos hcond]
    have hcast : ((i : Int) + 1) = ((i + 1 : Nat) : Int) := by push_cast; rfl
    rw [hcast, hr]
    refine ⟨_, rfl, by simp [hrl], ?_⟩
    rw [List.flatten_cons, hrf]
    unfold workerOffers
    rw [chunkOffers_shift, add_zero]
    have hsub : ((((i + 1) * image.length / N : Nat) : Int) -
        ((i * image.length / N : Nat) : Int)).toNat =
        (i + 1) * image.length / N - i * image.length / N := by
      omega
    rw [Int.toNat_ofNat, hsub]
    generalize i * image.length / N = c at *
    generalize (i + 1) * image.length / N = c' at *
    have hsplit : image.drop c = (image.drop c).take (c' - c) ++ image.drop c' := by
      conv => lhs; rw [← List.take_append_drop (c' - c) (image.drop c)]
      rw [List.drop_drop]
      congr 2
      omega
    conv => rhs; rw [hsplit, chunkOffers_append]
    congr 2
    rw [List.length_take, List.length_drop]
    omega

theorem dispatch_total (image : List (List Int)) (numThreads : Int) (hN : 1 ≤ numThreads)
    (hB : numThreads * (image.length : Int) < 2147483648) :
    ∃ qs, dispatch workerOffers image numThreads numThreads.toNat 0 = some qs ∧
      qs.length = numThreads.toNat ∧ qs.flatten = allCells image := by
  obtain ⟨N, rfl⟩ := Int.eq_ofNat_of_zero_le (by omega : 0 ≤ numThreads)
  have hN' : 0 < N := by omega
  have hB' : N * image.length < 2147483648 := by exact_mod_cast hB
  obtain ⟨qs, h1, h2, h3⟩ := dispatch_workerOffers image N hN' hB' N 0 (by omega)
  refine ⟨qs, by simpa using h1, by simpa using h2, ?_⟩
  rw [h3]
  simp [allCells]

theorem dispatch_async (image : List (List Int)) (numThreads : Int) (n : Nat) (i : Int) :
    dispatch GetTopPixelsWithMaxHeapAsync image numThreads n i =
      (dispatch workerOffers image numThreads n i).map
        (List.map fun l => l.foldl offer []) :=
  dispatch_map (fun l => l.foldl offer []) workerOffers image numThreads n i

/-! ## The two entry points, structurally -/

theorem pairwise_reverse_ge (d : List Pixel) (h : d.Pairwise (fun a b => a.value ≤ b.value)) :
    d.reverse.Pairwise (fun a b => a.value ≥ b.value) := by
  rw [List.pairwise_reverse]
  exact h

theorem concurrent_of_dispatch (image : List (List Int)) (numThreads : Int) (sched : List Nat)
    (qs : List (List Pixel)) (hN : numThreads ≠ 0)
    (hq : dispatch workerOffers image numThreads numThreads.toNat 0 = some qs) :
    ∃ r, FindTopPixelsConcurrently image numThreads sched = some r ∧
      TopResult qs.flatten r := by
  have hperm : (interleave qs sched).Perm qs.flatten := interleave_perm qs sched
  obtain ⟨hh, hlen, ev, hev, hle⟩ := topInv_run (interleave qs sched)
  obtain ⟨d, hd, hdp, hds⟩ :=
    drainLoop_spec ((interleave qs sched).foldl offer []).length
      ((interleave qs sched).foldl offer []) [] (le_refl _) hh
  refine ⟨d.reverse, ?_, ?_, pairwise_reverse_ge d hds, ev, ?_, ?_⟩
  · unfold FindTopPixelsConcurrently
    rw [if_neg hN, hq]
    simp only [hd, List.nil_append]
  · rw [List.length_reverse, hdp.length_eq, hlen, hperm.length_eq]
  · exact ((List.Perm.append_right ev ((List.reverse_perm d).trans hdp)).trans hev).trans hperm
  · intro c hc e he
    exact hle c hc e (hdp.subset (List.mem_reverse.mp he))

theorem concurrent_spec (image : List (List Int)) (numThreads : Int) (sched : List Nat)
    (hN : 1 ≤ numThreads) (hB : numThreads * (image.length : Int) < 2147483648) :
    ∃ r, FindTopPixelsConcurrently image numThreads sched = some r ∧
      TopResult (allCells image) r := by
  obtain ⟨qs, hq, _, hf⟩ := dispatch_total image numThreads hN hB
  rw [← hf]
  exact concurrent_of_dispatch image numThreads sched qs (by omega) hq

theorem concurrent_run (image : List (List Int)) (numThreads : Int) (sched : List Nat)
    (r : List Pixel) (h : FindTopPixelsConcurrently image numThreads sched = some r) :
    ∃ qs, dispatch workerOffers image numThreads numThreads.toNat 0 = some qs ∧
      TopResult qs.flatten r := by
  by_cases hN : numThreads = 0
  · unfold FindTopPixelsConcurrently at h
    rw [if_pos hN] at h
    exact absurd h (by simp)
  · cases hq : dispatch workerOffers image numThreads numThreads.toNat 0 with
    | none =>
      unfold FindTopPixelsConcurrently at h
      rw [if_neg hN, hq] at h
      exact absurd h (by simp)
    | some qs =>
      obtain ⟨r2, hr2, ht⟩ := concurrent_of_dispatch image numThreads sched qs hN hq
      rw [h] at hr2
      obtain rfl : r = r2 := Option.some.inj hr2
      exact ⟨qs, rfl, ht⟩

theorem master_spec (locals : List (List Pixel)) (m : List Pixel) (hm : IsHeap m) :
    IsHeap (locals.foldl (fun maxHeap localResults =>
        mergeLoop localResults.length maxHeap localResults) m) ∧
      (locals.foldl (fun maxHeap localResults =>
        mergeLoop localResults.length maxHeap localResults) m).Perm (m ++ locals.flatten) := by
  induction locals generalizing m with
  | nil => simpa using hm
  | cons l ls ih =>
    obtain ⟨h1, h2⟩ := mergeLoop_spec l.length m l (le_refl _) hm
    obtain ⟨h3, h4⟩ := ih (mergeLoop l.length m l) h1
    refine ⟨h3, ?_⟩
    simp only [List.foldl_cons, List.flatten_cons]
    refine h4.trans ?_
    rw [← List.append_assoc]
    exact List.Perm.append_right _ h2

theorem async_of_dispatch (image : List (List Int)) (numThreads : Int)
    (qs : List (List Pixel)) (hN : numThreads ≠ 0)
    (hq : dispatch workerOffers image numThreads numThreads.toNat 0 = some qs) :
    ∃ d : List Pixel, d.Perm (qs.map fun l => l.foldl offer []).flatten ∧
      d.Pairwise (fun a b => a.value ≤ b.value) ∧
      FindTopPixelsAsync image numThreads = some (d.take 51).reverse := by
  obtain ⟨hmh, hmp⟩ := master_spec (qs.map fun l => l.foldl offer []) [] isHeap_nil
  obtain ⟨d, hd, hdp, hds⟩ := drainLoop_spec _ _ [] (le_refl _) hmh
  refine ⟨d, hdp.trans (by simpa using hmp), hds, ?_⟩
  unfold FindTopPixelsAsync
  rw [if_neg hN, dispatch_async, hq]
  simp only [Option.map_some', drainLoopAsync_eq, hd, List.nil_append, List.length_nil,
    Nat.sub_zero]

theorem async_spec (image : List (List Int)) (numThreads : Int) (hN : 1 ≤ numThreads)
    (hB : numThreads * (image.length : Int) < 2147483648) :
    ∃ (qs : List (List Pixel)) (d : List Pixel),
      dispatch workerOffers image numThreads numThreads.toNat 0 = some qs ∧
      qs.length = numThreads.toNat ∧ qs.flatten = allCells image ∧
      d.Perm (qs.map fun l => l.foldl offer []).flatten ∧
      d.Pairwise (fun a b => a.value ≤ b.value) ∧
      FindTopPixelsAsync image numThreads = some (d.take 51).reverse := by
  obtain ⟨qs, hq, hl, hf⟩ := dispatch_total image numThreads hN hB
  obtain ⟨d, hdp, hds, hr⟩ := async_of_dispatch image numThreads qs (by omega) hq
  exact ⟨qs, d, hq, hl, hf, hdp, hds, hr⟩

theorem async_run (image : List (List Int)) (numThreads : Int) (r : List Pixel)
    (h : FindTopPixelsAsync image numThreads = some r) :
    ∃ (qs : List (List Pixel)) (d : List Pixel),
      dispatch workerOffers image numThreads numThreads.toNat 0 = some qs ∧
      d.Perm (qs.map fun l => l.foldl offer []).flatten ∧
      d.Pairwise (fun a b => a.value ≤ b.value) ∧ r = (d.take 51).reverse := by
  by_cases hN : numThreads = 0
  · unfold FindTopPixelsAsync at h
    rw [if_pos hN] at h
    exact absurd h (by simp)
  · cases hq : dispatch workerOffers image numThreads numThreads.toNat 0 with
    | none =>
      unfold FindTopPixelsAsync at h
      rw [if_neg hN, dispatch_async, hq] at h
      exact absurd h (by simp)
    | some qs =>
      obtain ⟨d, hdp, hds, hr⟩ := async_of_dispatch image numThreads qs hN hq
      rw [h] at hr
      exact ⟨qs, d, rfl, hdp, hds, Option.some.inj hr⟩

/-- Both entry points return, or neither does: they run the same dispatch loop. -/
theorem async_none_iff (image : List (List Int)) (numThreads : Int) (sched : List Nat) :
    FindTopPixelsAsync image numThreads = none ↔
      FindTopPixelsConcurrently image numThreads sched = none := by
  unfold FindTopPixelsAsync FindTopPixelsConcurrently
  by_cases hN : numThreads = 0
  · simp [hN]
  · rw [if_neg hN, if_neg hN, dispatch_async]
    cases dispatch workerOffers image numThreads numThreads.toNat 0 <;> simp

/-! ## Schedules and interleavings -/

theorem first_pending (qs : List (List Pixel)) (p : Pixel) (t : List Pixel)
    (h : qs.flatten = p :: t) :
    ∃ w rest, qs.getD w [] = p :: rest ∧ (qs.set w rest).flatten = t := by
  induction qs with
  | nil => simp at h
  | cons q qs ih =>
    cases q with
    | nil =>
      obtain ⟨w, rest, h1, h2⟩ := ih (by simpa using h)
      exact ⟨w + 1, rest, by simpa using h1, by simpa using h2⟩
    | cons x xs =>
      simp only [List.flatten_cons, List.cons_append, List.cons.injEq] at h
      obtain ⟨rfl, rfl⟩ := h
      exact ⟨0, xs, by simp, by simp⟩

theorem interleaving_flatten (n : Nat) (qs : List (List Pixel)) (h : qs.flatten.length = n) :
    Interleaving qs qs.flatten := by
  induction n generalizing qs with
  | zero => 
    have e : qs.flatten = [] := List.eq_nil_of_length_eq_zero h
    rw [e]; exact Interleaving.done qs e
  | succ n ih =>
    cases hq : qs.flatten with
    | nil => rw [hq] at h; simp at h
    | cons p t =>
      obtain ⟨w, rest, h1, h2⟩ := first_pending qs p t hq
      have := ih (qs.set w rest) (by rw [h2]; rw [hq] at h; simpa using h)
      rw [h2] at this
      exact Interleaving.step qs w p rest t h1 this

/-- Every schedule yields a run of the workers. -/
theorem interleave_sound (qs : List (List Pixel)) (sched : List Nat) :
    Interleaving qs (interleave qs sched) := by
  induction sched generalizing qs with
  | nil => exact interleaving_flatten _ qs rfl
  | cons w sched ih =>
    simp only [interleave]
    split
    · exact ih qs
    · next p rest hq => exact Interleaving.step qs w p rest _ hq (ih _)

/-- Every run of the workers is the run of some schedule. -/
theorem interleave_complete (qs : List (List Pixel)) (order : List Pixel)
    (h : Interleaving qs order) : ∃ sched, interleave qs sched = order := by
  induction h with
  | done queues he => exact ⟨[], by simpa [interleave] using he⟩
  | step queues w p rest order hq _ ih =>
    obtain ⟨s, hs⟩ := ih
    exact ⟨w :: s, by simp only [interleave, hq, hs]⟩

theorem interleave_single (q : List Pixel) (sched : List Nat) : interleave [q] sched = q := by
  induction sched generalizing q with
  | nil => simp [interleave]
  | cons w sched ih =>
    simp only [interleave]
    cases w with
    | zero =>
      cases q with
      | nil => simpa using ih []
      | cons p rest => simpa using ih rest
    | succ k => simpa using ih q

/-! ## Results and cells -/

theorem topResult_mem (cells r : List Pixel) (h : TopResult cells r) (e : Pixel) (he : e ∈ r) :
    e ∈ cells := by
  obtain ⟨_, _, ev, hp, _⟩ := h
  exact hp.subset (List.mem_append_left ev he)

theorem topResult_out (cells r : List Pixel) (h : TopResult cells r) (c : Pixel)
    (hc : c ∈ cells) (hn : c ∉ r) : ∀ e ∈ r, c.value ≤ e.value := by
  obtain ⟨_, _, ev, hp, hle⟩ := h
  have : c ∈ r ++ ev := hp.symm.subset hc
  rcases List.mem_append.mp this with h1 | h1
  · exact absurd h1 hn
  · exact hle c h1

theorem cellCount_rect (image : List (List Int)) (W : Nat)
    (h : ∀ r ∈ image, r.length = W) : cellCount image = image.length * W := by
  induction image with
  | nil => simp [cellCount]
  | cons r rest ih =>
    have h1 := h r (List.mem_cons_self r rest)
    have h2 := ih (fun x hx => h x (List.mem_cons_of_mem r hx))
    simp only [cellCount, List.map_cons, List.sum_cons, List.length_cons] at h2 ⊢
    rw [h2, h1]; ring

theorem pairwise_adjacent (r : List Pixel) (h : r.Pairwise (fun a b => a.value ≥ b.value))
    (i : Nat) (a b : Pixel) (ha : r[i]? = some a) (hb : r[i + 1]? = some b) :
    a.value ≥ b.value := by
  rw [List.pairwise_iff_getElem] at h
  obtain ⟨h1, rfl⟩ := List.getElem?_eq_some_iff.mp ha
  obtain ⟨h2, rfl⟩ := List.getElem?_eq_some_iff.mp hb
  exact h i (i + 1) h1 h2 (by omega)

/-! ## The loops end before their fuel does -/

theorem pushHeapLoop_fuel (f1 f2 : Nat) (a : List Pixel) (hole top : Nat) (v : Pixel)
    (h1 : hole ≤ f1) (h2 : hole ≤ f2) :
    pushHeapLoop f1 a hole top v = pushHeapLoop f2 a hole top v := by
  induction f1 generalizing f2 a hole with
  | zero =>
    have h0 : hole = 0 := by omega
    subst h0
    cases f2 with
    | zero => rfl
    | succ n => simp [pushHeapLoop]
  | succ m ih =>
    cases f2 with
    | zero =>
      have h0 : hole = 0 := by omega
      subst h0
      simp [pushHeapLoop]
    | succ n =>
      simp only [pushHeapLoop]
      split_ifs with hc
      · exact ih n _ _ (by omega) (by omega)
      · rfl

theorem adjustLoop_fuel (f1 f2 : Nat) (a : List Pixel) (hole len : Nat)
    (h1 : len ≤ f1 + hole) (h2 : len ≤ f2 + hole) :
    adjustLoop f1 a hole len = adjustLoop f2 a hole len := by
  induction f1 generalizing f2 a hole with
  | zero =>
    cases f2 with
    | zero => rfl
    | succ n =>
      have : ¬ hole < (len - 1) / 2 := by omega
      simp [adjustLoop, this]
  | succ m ih =>
    cases f2 with
    | zero =>
      have : ¬ hole < (len - 1) / 2 := by omega
      simp [adjustLoop, this]
    | succ n =>
      simp only [adjustLoop]
      split_ifs with hc hd
      · exact ih n _ _ (by omega) (by omega)
      · exact ih n _ _ (by omega) (by omega)
      · rfl

theorem drainLoop_fuel (f1 f2 : Nat) (h res : List Pixel) (h1 : h.length ≤ f1)
    (h2 : h.length ≤ f2) : drainLoop f1 h res = drainLoop f2 h res := by
  induction f1 generalizing f2 h res with
  | zero =>
    have : h = [] := List.eq_nil_of_length_eq_zero (by omega)
    subst this
    cases f2 <;> simp [drainLoop]
  | succ m ih =>
    cases h with
    | nil => cases f2 <;> simp [drainLoop]
    | cons t rest =>
      cases f2 with
      | zero => simp at h2
      | succ n =>
        simp only [drainLoop]
        have hl : (pqPop (t :: rest)).length = rest.length := by rw [pqPop_length]; simp
        simp only [List.length_cons] at h1 h2
        exact ih n _ _ (by omega) (by omega)

theorem mergeLoop_fuel (f1 f2 : Nat) (m l : List Pixel) (h1 : l.length ≤ f1)
    (h2 : l.length ≤ f2) : mergeLoop f1 m l = mergeLoop f2 m l := by
  induction f1 generalizing f2 m l with
  | zero =>
    have : l = [] := List.eq_nil_of_length_eq_zero (by omega)
    subst this
    cases f2 <;> simp [mergeLoop]
  | succ k ih =>
    cases l with
    | nil => cases f2 <;> simp [mergeLoop]
    | cons t rest =>
      cases f2 with
      | zero => simp at h2
      | succ n =>
        simp only [mergeLoop]
        have hl : (pqPop (t :: rest)).length = rest.length := by rw [pqPop_length]; simp
        simp only [List.length_cons] at h1 h2
        exact ih n _ _ (by omega) (by omega)

theorem drainLoopAsync_fuel (f1 f2 : Nat) (h res : List Pixel) (h1 : h.length ≤ f1)
    (h2 : h.length ≤ f2) : drainLoopAsync f1 h res = drainLoopAsync f2 h res := by
  rw [drainLoopAsync_eq, drainLoopAsync_eq, drainLoop_fuel f1 f2 h [] h1 h2]

/-- With one thread the shared queue sees the offers of `GetTopPixelsWithMaxHeap` run on the
whole image. -/
theorem concurrent_one_thread (image : List (List Int)) (sched : List Nat)
    (hR : image.length < 2147483648) :
    FindTopPixelsConcurrently image 1 sched =
      some (drainLoop (GetTopPixelsWithMaxHeap image 0 image.length []).length
        (GetTopPixelsWithMaxHeap image 0 image.length []) []).reverse := by
  obtain ⟨qs, hq, hl, hf⟩ := dispatch_total image 1 (le_refl _) (by omega)
  have hqs : qs = [allCells image] := by
    match qs, hl, hf with
    | [q], _, hf => simpa using hf
  unfold FindTopPixelsConcurrently
  rw [hq, hqs]
  simp only [interleave_single]
  rfl

/-! ## Runs outside the range of `int` -/

theorem rowsOf_of_length (image : List (List Int)) (n : Nat) (hl : image.length = n) :
    rowsOf image = wrapInt32 (n : Int) := by
  unfold rowsOf
  rw [hl]

/-- With 1048576 rows and 2048 threads the product `2048 * 1048576` of the last iteration is
`2 ^ 31`: `endRow` comes out as `-1048576` and the range of the last chunk is not one. -/
theorem dispatch_overflow {β : Type} (w : List (List Int) → Int → Int → β)
    (image : List (List Int)) (hl : image.length = 1048576) :
    dispatch w image 2048 (2048 : Int).toNat 0 = none := by
  have hbad : chunkRows image (startRowOf (0 + ((2047 : Nat) : Int)) (rowsOf image) 2048)
      (endRowOf (0 + ((2047 : Nat) : Int)) (rowsOf image) 2048) = none := by
    rw [rowsOf_of_length image 1048576 hl]
    have hs : startRowOf (0 + ((2047 : Nat) : Int)) (wrapInt32 ((1048576 : Nat) : Int)) 2048 =
        1048064 := by decide
    have he : endRowOf (0 + ((2047 : Nat) : Int)) (wrapInt32 ((1048576 : Nat) : Int)) 2048 =
        -1048576 := by decide
    rw [hs, he]
    unfold chunkRows
    rw [if_neg (by omega)]
  exact dispatch_none_of_bad w image 2048 (2048 : Int).toNat 2047 0 (by decide) hbad

theorem concurrent_overflow (image : List (List Int)) (hl : image.length = 1048576)
    (sched : List Nat) : FindTopPixelsConcurrently image 2048 sched = none := by
  unfold FindTopPixelsConcurrently
  rw [if_neg (by decide), dispatch_overflow workerOffers image hl]

theorem async_overflow (image : List (List Int)) (hl : image.length = 1048576) :
    FindTopPixelsAsync image 2048 = none := by
  unfold FindTopPixelsAsync
  rw [if_neg (by decide), dispatch_overflow GetTopPixelsWithMaxHeapAsync image hl]

/-- A vector of `2 ^ 31` rows has `rows = -2147483648`, and the one chunk of a single thread
would end before it starts. -/
theorem dispatch_negative_rows {β : Type} (w : List (List Int) → Int → Int → β)
    (image : List (List Int)) (hl : image.length = 2147483648) :
    dispatch w image 1 (1 : Int).toNat 0 = none := by
  have hbad : chunkRows image (startRowOf (0 + ((0 : Nat) : Int)) (rowsOf image) 1)
      (endRowOf (0 + ((0 : Nat) : Int)) (rowsOf image) 1) = none := by
    rw [rowsOf_of_length image 2147483648 hl]
    have hs : startRowOf (0 + ((0 : Nat) : Int)) (wrapInt32 ((2147483648 : Nat) : Int)) 1 =
        0 := by decide
    have he : endRowOf (0 + ((0 : Nat) : Int)) (wrapInt32 ((2147483648 : Nat) : Int)) 1 =
        -2147483648 := by decide
    rw [hs, he]
    unfold chunkRows
    rw [if_neg (by omega)]
  exact dispatch_none_of_bad w image 1 (1 : Int).toNat 0 0 (by decide) hbad

theorem concurrent_negative_rows (image : List (List Int)) (hl : image.length = 2147483648)
    (sched : List Nat) : FindTopPixelsConcurrently image 1 sched = none := by
  unfold FindTopPixelsConcurrently
  rw [if_neg (by decide), dispatch_negative_rows workerOffers image hl]

theorem async_negative_rows (image : List (List Int)) (hl : image.length = 2147483648) :
    FindTopPixelsAsync image 1 = none := by
  unfold FindTopPixelsAsync
  rw [if_neg (by decide), dispatch_negative_rows GetTopPixelsWithMaxHeapAsync image hl]

/-- A vector of `2 ^ 32 + 1` rows has `rows = 1`: a single thread is handed row 0 alone. -/
theorem dispatch_wrapped_rows (row0 : List Int) (tl : List (List Int))
    (hl : tl.length = 4294967296) :
    dispatch workerOffers (row0 :: tl) 1 (1 : Int).toNat 0 = some [chunkOffers 0 [row0] 0] := by
  have hr : rowsOf (row0 :: tl) = 1 := by
    rw [rowsOf_of_length (row0 :: tl) 4294967297 (by rw [List.length_cons, hl])]
    decide
  have h1 : (1 : Int).toNat = 1 := rfl
  rw [h1, dispatch_succ, hr]
  have hs : startRowOf 0 1 1 = 0 := by decide
  have he : endRowOf 0 1 1 = 1 := by decide
  rw [hs, he]
  have hc : chunkRows (row0 :: tl) 0 1 = some [row0] := by
    unfold chunkRows
    rw [if_pos ⟨le_refl _, by omega, by rw [List.length_cons]; omega⟩]
    rfl
  rw [hc]
  rfl

theorem concurrent_wrapped_rows (tl : List (List Int)) (hl : tl.length = 4294967296)
    (sched : List Nat) :
    FindTopPixelsConcurrently ([0] :: tl) 1 sched = some [⟨0, 0, 0⟩] := by
  unfold FindTopPixelsConcurrently
  rw [if_neg (by decide), dispatch_wrapped_rows [0] tl hl]
  simp only [interleave_single]
  decide

theorem concurrent_wrapped_empty (tl : List (List Int)) (hl : tl.length = 4294967296)
    (sched : List Nat) : FindTopPixelsConcurrently ([] :: tl) 1 sched = some [] := by
  unfold FindTopPixelsConcurrently
  rw [if_neg (by decide), dispatch_wrapped_rows [] tl hl]
  simp only [interleave_single]
  decide

theorem async_wrapped_empty (tl : List (List Int)) (hl : tl.length = 4294967296) :
    FindTopPixelsAsync ([] :: tl) 1 = some [] := by
  unfold FindTopPixelsAsync
  rw [if_neg (by decide), dispatch_async, dispatch_wrapped_rows [] tl hl]
  decide

/-! ## Claims on the results -/

/-- C3 as stated fails. On a grid of 1048576 rows of one zero with 2048 threads the product
`2048 * 1048576` does not fit in `int`, the last chunk gets `endRow = -1048576`, and
`FindTopPixelsConcurrently` has no result at all, whatever the order of the offers. And for a
vector of `2 ^ 32 + 1` rows of one cell, `const int rows = image.size()` is 1 and with one
thread the result has 1 entry, while `min 50 (number of cells)` is 50. -/
theorem C3_counterexample :
    ((1 : Int) ≤ 2048 ∧
      ∀ sched : List Nat, FindTopPixelsConcurrently (zeroGrid 1048576 1) 2048 sched = none) ∧
    ((1 : Int) ≤ 1 ∧
      (FindTopPixelsConcurrently ([0] :: List.replicate 4294967296 [1]) 1 []).map List.length =
        some 1 ∧
      min 50 (cellCount ([0] :: List.replicate 4294967296 [1])) = 50) := by
  refine ⟨⟨by decide, fun sched =>
    concurrent_overflow (zeroGrid 1048576 1) (List.length_replicate _ _) sched⟩,
    le_refl _, ?_, ?_⟩
  · rw [concurrent_wrapped_rows _ (List.length_replicate _ _) []]
    rfl
  · have hW : ∀ r ∈ ([0] :: List.replicate 4294967296 [1] : List (List Int)),
        r.length = 1 := by
      intro r hr
      rcases List.mem_cons.mp hr with h | h
      · rw [h]; rfl
      · rw [(List.mem_replicate.mp h).2]; rfl
    rw [cellCount_rect _ 1 hW, List.length_cons, List.length_replicate]
    decide

/-- C3, amended. Result size of the shared-state strategy: for every image, every
`numThreads ≥ 1` with `numThreads * rows < 2 ^ 31` and every order of the offers, the result of
`FindTopPixelsConcurrently` has `min 50 (number of cells)` entries, that is `min 50 (H * W)`
for a rectangular grid; for the 10 x 10 grid of zeros it has exactly 50 entries, all of
value 0. -/
theorem C3_concurrent_result_size (image : List (List Int)) (numThreads : Int)
    (sched : List Nat) (hN : 1 ≤ numThreads)
    (hB : numThreads * (image.length : Int) < 2147483648) :
    ∃ result, FindTopPixelsConcurrently image numThreads sched = some result ∧
      result.length = min 50 (cellCount image) ∧
      (∀ W : Nat, (∀ r ∈ image, r.length = W) → result.length = min 50 (image.length * W)) ∧
      (image = zeroGrid 10 10 → result.length = 50 ∧ ∀ e ∈ result, e.value = 0) := by
  obtain ⟨result, hr, ht⟩ := concurrent_spec image numThreads sched hN hB
  have hlen : result.length = min 50 (cellCount image) := by
    rw [ht.1, allCells_length]
  refine ⟨result, hr, hlen, ?_, ?_⟩
  · intro W hW
    rw [hlen, cellCount_rect image W hW]
  · intro hz
    subst hz
    refine ⟨by rw [hlen]; decide, ?_⟩
    intro e he
    have hmem := topResult_mem _ _ ht e he
    obtain ⟨r, c, hcell, _, _⟩ := (mem_allCells _ e).mp hmem
    obtain ⟨rowl, h1, h2⟩ := (cellAt_iff _ r c e.value).mp hcell
    have hrow : rowl ∈ zeroGrid 10 10 := List.getElem?_mem h1
    have hv : e.value ∈ rowl := List.getElem?_mem h2
    rw [zeroGrid, List.mem_replicate] at hrow
    rw [hrow.2, List.mem_replicate] at hv
    exact hv.2

/-- Witness of the amended C3 on the 10 x 10 grid of zeros with three threads. -/
theorem C3_concurrent_result_size_witness :
    (1 : Int) ≤ 3 ∧ (3 : Int) * ((zeroGrid 10 10).length : Int) < 2147483648 ∧
    ∃ result, FindTopPixelsConcurrently (zeroGrid 10 10) 3 [2, 0, 1, 1] = some result ∧
      result.length = min 50 (cellCount (zeroGrid 10 10)) ∧
      (∀ W : Nat, (∀ r ∈ zeroGrid 10 10, r.length = W) →
        result.length = min 50 ((zeroGrid 10 10).length * W)) ∧
      (zeroGrid 10 10 = zeroGrid 10 10 → result.length = 50 ∧ ∀ e ∈ result, e.value = 0) :=
  ⟨by decide, by decide,
    C3_concurrent_result_size (zeroGrid 10 10) 3 [2, 0, 1, 1] (by decide) (by decide)⟩

/-- C5. Descending order: for every image and every `numThreads ≥ 1` (and every order of the
offers for the shared-state strategy), whatever `FindTopPixelsConcurrently` or
`FindTopPixelsAsync` returns is sorted non-increasing by value: every earlier entry has a value
at least that of every later one, in particular `result[i].value ≥ result[i+1].value`. Both
do return a sequence when `numThreads * rows < 2 ^ 31`. -/
theorem C5_results_descending (image : List (List Int)) (numThreads : Int)
    (sched : List Nat) (hN : 1 ≤ numThreads) :
    (∀ result, FindTopPixelsConcurrently image numThreads sched = some result →
      result.Pairwise (fun a b => a.value ≥ b.value) ∧
      ∀ (i : Nat) (a b : Pixel), result[i]? = some a → result[i + 1]? = some b →
        a.value ≥ b.value) ∧
    (∀ result, FindTopPixelsAsync image numThreads = some result →
      result.Pairwise (fun a b => a.value ≥ b.value) ∧
      ∀ (i : Nat) (a b : Pixel), result[i]? = some a → result[i + 1]? = some b →
        a.value ≥ b.value) ∧
    (numThreads * (image.length : Int) < 2147483648 →
      (∃ result, FindTopPixelsConcurrently image numThreads sched = some result) ∧
      ∃ result, FindTopPixelsAsync image numThreads = some result) := by
  refine ⟨?_, ?_, ?_⟩
  · intro result h
    obtain ⟨qs, _, ht⟩ := concurrent_run image numThreads sched result h
    exact ⟨ht.2.1, pairwise_adjacent result ht.2.1⟩
  · intro result h
    obtain ⟨qs, d, _, _, hds, rfl⟩ := async_run image numThreads result h
    have hs : (d.take 51).reverse.Pairwise (fun a b => a.value ≥ b.value) :=
      pairwise_reverse_ge _ (hds.sublist (List.take_sublist 51 d))
    exact ⟨hs, pairwise_adjacent _ hs⟩
  · intro hB
    obtain ⟨r1, hr1, _⟩ := concurrent_spec image numThreads sched hN hB
    obtain ⟨_, d, _, _, _, _, _, hr2⟩ := async_spec image numThreads hN hB
    exact ⟨⟨r1, hr1⟩, ⟨_, hr2⟩⟩

/-- Witness of C5 on a grid of 60 distinct values with two threads, where both entry points
return. -/
theorem C5_results_descending_witness :
    (1 : Int) ≤ 2 ∧ (2 : Int) * ((rampGrid 2 30).length : Int) < 2147483648 ∧
    (∃ result, FindTopPixelsConcurrently (rampGrid 2 30) 2 [1, 1, 0] = some result ∧
      result.Pairwise (fun a b => a.value ≥ b.value)) ∧
    (∃ result, FindTopPixelsAsync (rampGrid 2 30) 2 = some result ∧
      result.Pairwise (fun a b => a.value ≥ b.value)) :=
  have h := C5_results_descending (rampGrid 2 30) 2 [1, 1, 0] (by decide)
  have hb : (2 : Int) * ((rampGrid 2 30).length : Int) < 2147483648 := by decide
  ⟨by decide, hb,
    (h.2.2 hb).1.elim fun r hr => ⟨r, hr, (h.1 r hr).1⟩,
    (h.2.2 hb).2.elim fun r hr => ⟨r, hr, (h.2.1 r hr).1⟩⟩

/-! ## Claims on the partition -/

theorem cut_exists (H N r : Nat) (m : Nat) (hr : r < m * H / N) :
    ∃ k, k < m ∧ k * H / N ≤ r ∧ r < (k + 1) * H / N := by
  induction m with
  | zero => simp at hr
  | succ m ih =>
    by_cases h : r < m * H / N
    · obtain ⟨k, h1, h2⟩ := ih h
      exact ⟨k, by omega, h2⟩
    · exact ⟨m, by omega, by omega, hr⟩

theorem cut_empty_count (H N m : Nat) :
    m ≤ m * H / N +
      ((List.range m).filter fun i => decide ((i + 1) * H / N = i * H / N)).length := by
  induction m with
  | zero => simp
  | succ m ih =>
    rw [List.range_succ, List.filter_append, List.length_append]
    have hm := cut_mono H N m (m + 1) (by omega)
    by_cases h : (m + 1) * H / N = m * H / N
    · simp only [List.filter_cons, h, decide_True, if_true, List.filter_nil,
        List.length_singleton]
      omega
    · simp only [List.filter_cons, h, decide_False, List.filter_nil, List.length_nil]
      simp only [Bool.false_eq_true, if_false, List.length_nil]
      omega

/-- The products formed by the dispatch loops lie between 0 and `numThreads * rows`: none of
them wraps around when `numThreads * rows < 2 ^ 31`. -/
theorem dispatch_products_bounded (rows numThreads i : Int) (hH : 0 ≤ rows) (hi : 0 ≤ i)
    (hlt : i < numThreads) :
    0 ≤ i * rows ∧ i * rows ≤ (i + 1) * rows ∧ (i + 1) * rows ≤ numThreads * rows :=
  ⟨mul_nonneg hi hH, mul_le_mul_of_nonneg_right (by omega) hH,
    mul_le_mul_of_nonneg_right (by omega) hH⟩

/-- C6 as stated fails: for 1048576 rows and 2048 threads the product `2048 * 1048576` of the
last iteration is `2 ^ 31`, which as an `int` is `-2 ^ 31`; the last range starts at 1048064 and
ends at `-1048576`, not at `rows`, so it ends before it starts. -/
theorem C6_counterexample :
    (0 : Int) ≤ 1048576 ∧ (1 : Int) ≤ 2048 ∧
    startRowOf (2048 - 1) 1048576 2048 = 1048064 ∧
    endRowOf (2048 - 1) 1048576 2048 = -1048576 ∧
    ¬ endRowOf (2048 - 1) 1048576 2048 = 1048576 ∧
    ¬ startRowOf (2048 - 1) 1048576 2048 ≤ endRowOf (2048 - 1) 1048576 2048 := by
  decide

/-- C6, amended. Partition cover: for every row count `rows ≥ 0` and every `numThreads ≥ 1`
with `numThreads * rows < 2 ^ 31`, the ranges `[startRow_i, endRow_i)` of the dispatch loops
start at 0, end at `rows`, are well-formed and inside `[0, rows]`, each ends where the next one
starts, earlier ranges lie before later ones, and every row of `[0, rows)` lies in exactly one
range; with `rows = 0` all ranges are empty. -/
theorem C6_partition_cover (rows numThreads : Int) (hH : 0 ≤ rows) (hN : 1 ≤ numThreads)
    (hB : numThreads * rows < 2147483648) :
    startRowOf 0 rows numThreads = 0 ∧
    endRowOf (numThreads - 1) rows numThreads = rows ∧
    (∀ i, 0 ≤ i → i < numThreads →
      0 ≤ startRowOf i rows numThreads ∧
      startRowOf i rows numThreads ≤ endRowOf i rows numThreads ∧
      endRowOf i rows numThreads ≤ rows ∧
      endRowOf i rows numThreads = startRowOf (i + 1) rows numThreads) ∧
    (∀ i j, 0 ≤ i → i < j → j < numThreads →
      endRowOf i rows numThreads ≤ startRowOf j rows numThreads) ∧
    (∀ r, 0 ≤ r → r < rows →
      ∃! i, 0 ≤ i ∧ i < numThreads ∧
        startRowOf i rows numThreads ≤ r ∧ r < endRowOf i rows numThreads) ∧
    (rows = 0 → ∀ i, 0 ≤ i → i < numThreads →
      startRowOf i rows numThreads = 0 ∧ endRowOf i rows numThreads = 0) := by
  obtain ⟨H, rfl⟩ := Int.eq_ofNat_of_zero_le hH
  obtain ⟨N, rfl⟩ := Int.eq_ofNat_of_zero_le (by omega : 0 ≤ numThreads)
  have hN' : 0 < N := by omega
  have hB' : N * H < 2147483648 := by exact_mod_cast hB
  have hb : ∀ a : Nat, a ≤ N → a * H < 2147483648 := fun a ha =>
    lt_of_le_of_lt (Nat.mul_le_mul_right _ ha) hB'
  have hsep : ∀ i j : Int, 0 ≤ i → i < j → j < (N : Int) →
      endRowOf i (H : Int) (N : Int) ≤ startRowOf j (H : Int) (N : Int) := by
    intro i j hi hij hj
    obtain ⟨a, rfl⟩ := Int.eq_ofNat_of_zero_le hi
    obtain ⟨b, rfl⟩ := Int.eq_ofNat_of_zero_le (by omega : 0 ≤ j)
    rw [endRowOf_natCast _ _ _ (hb (a + 1) (by omega)),
      startRowOf_natCast _ _ _ (hb b (by omega))]
    exact_mod_cast cut_mono H N (a + 1) b (by omega)
  refine ⟨?_, ?_, ?_, hsep, ?_, ?_⟩
  · have h0 := startRowOf_natCast 0 H N (by omega)
    simpa using h0
  · have e : ((N : Int) - 1) = ((N - 1 : Nat) : Int) := by omega
    have hN1 : N - 1 + 1 = N := by omega
    rw [e, endRowOf_natCast _ _ _ (hb (N - 1 + 1) (by omega))]
    rw [hN1, cut_last H N hN']
  · intro i hi hlt
    obtain ⟨k, rfl⟩ := Int.eq_ofNat_of_zero_le hi
    have hk : k < N := by omega
    have e : ((k : Int) + 1) = ((k + 1 : Nat) : Int) := by push_cast; rfl
    rw [e, startRowOf_natCast _ _ _ (hb k (by omega)),
      startRowOf_natCast _ _ _ (hb (k + 1) (by omega)),
      endRowOf_natCast _ _ _ (hb (k + 1) (by omega))]
    refine ⟨by positivity, ?_, ?_, rfl⟩
    · exact_mod_cast cut_mono H N k (k + 1) (by omega)
    · exact_mod_cast cut_le H N (k + 1) hN' (by omega)
  · intro r hr hrH
    obtain ⟨x, rfl⟩ := Int.eq_ofNat_of_zero_le hr
    have hx : x < N * H / N := by rw [cut_last H N hN']; omega
    obtain ⟨k, hk, h1, h2⟩ := cut_exists H N x N hx
    refine ⟨(k : Int), ⟨by positivity, by omega, ?_, ?_⟩, ?_⟩
    · rw [startRowOf_natCast _ _ _ (hb k (by omega))]; exact_mod_cast h1
    · rw [endRowOf_natCast _ _ _ (hb (k + 1) (by omega))]; exact_mod_cast h2
    · rintro j ⟨hj0, hjN, hj1, hj2⟩
      have hk1 : startRowOf (k : Int) (H : Int) (N : Int) ≤ (x : Int) := by
        rw [startRowOf_natCast _ _ _ (hb k (by omega))]; exact_mod_cast h1
      have hk2 : (x : Int) < endRowOf (k : Int) (H : Int) (N : Int) := by
        rw [endRowOf_natCast _ _ _ (hb (k + 1) (by omega))]; exact_mod_cast h2
      rcases lt_trichotomy j (k : Int) with hlt | heq | hgt
      · have := hsep j k hj0 hlt (by omega)
        omega
      · exact heq
      · have := hsep k j (by positivity) hgt hjN
        omega
  · intro h0 i hi hlt
    have hH0 : H = 0 := by omega
    subst hH0
    obtain ⟨k, rfl⟩ := Int.eq_ofNat_of_zero_le hi
    rw [startRowOf_natCast _ _ _ (by omega), endRowOf_natCast _ _ _ (by omega)]
    simp

/-- Witness of the amended C6 for 10 rows and 4 threads. -/
theorem C6_partition_cover_witness :
    (0 : Int) ≤ 10 ∧ (1 : Int) ≤ 4 ∧ (4 : Int) * 10 < 2147483648 ∧
    (startRowOf 0 10 4 = 0 ∧
    endRowOf (4 - 1) 10 4 = 10 ∧
    (∀ i, 0 ≤ i → i < 4 →
      0 ≤ startRowOf i 10 4 ∧ startRowOf i 10 4 ≤ endRowOf i 10 4 ∧
      endRowOf i 10 4 ≤ 10 ∧ endRowOf i 10 4 = startRowOf (i + 1) 10 4) ∧
    (∀ i j, 0 ≤ i → i < j → j < 4 → endRowOf i 10 4 ≤ startRowOf j 10 4) ∧
    (∀ r, 0 ≤ r → r < 10 →
      ∃! i, 0 ≤ i ∧ i < 4 ∧ startRowOf i 10 4 ≤ r ∧ r < endRowOf i 10 4) ∧
    ((10 : Int) = 0 → ∀ i, 0 ≤ i → i < 4 →
      startRowOf i 10 4 = 0 ∧ endRowOf i 10 4 = 0)) :=
  ⟨by decide, by decide, by decide,
    C6_partition_cover 10 4 (by decide) (by decide) (by decide)⟩

/-- C7 as stated fails: for 1048576 rows and 2048 threads the last product wraps around and
the last range has size `-1048576 - 1048064 = -2096640`, which is neither `rows / numThreads`
rounded down nor rounded up (both 512) and is not within one of the size 512 of the first
range. -/
theorem C7_counterexample :
    (0 : Int) ≤ 1048576 ∧ (1 : Int) ≤ 2048 ∧
    endRowOf (2048 - 1) 1048576 2048 - startRowOf (2048 - 1) 1048576 2048 = -2096640 ∧
    endRowOf 0 1048576 2048 - startRowOf 0 1048576 2048 = 512 ∧
    (1048576 : Int) / 2048 = 512 ∧ ((1048576 : Int) + 2048 - 1) / 2048 = 512 ∧
    ¬ (endRowOf 0 1048576 2048 - startRowOf 0 1048576 2048) -
      (endRowOf (2048 - 1) 1048576 2048 - startRowOf (2048 - 1) 1048576 2048) ≤ 1 := by
  decide

/-- C7, amended. Partition balance: for every `rows ≥ 0` and `numThreads ≥ 1` with
`numThreads * rows < 2 ^ 31`, the size `endRow_i - startRow_i` of each range is
`rows / numThreads` rounded down or rounded up, two sizes differ by at most one, and when
`numThreads > rows` at least `numThreads - rows` of the ranges are empty. -/
theorem C7_partition_balance (rows numThreads : Int) (hH : 0 ≤ rows) (hN : 1 ≤ numThreads)
    (hB : numThreads * rows < 2147483648) :
    (∀ i, 0 ≤ i → i < numThreads →
      endRowOf i rows numThreads - startRowOf i rows numThreads = rows / numThreads ∨
      endRowOf i rows numThreads - startRowOf i rows numThreads =
        (rows + numThreads - 1) / numThreads) ∧
    (∀ i j, 0 ≤ i → i < numThreads → 0 ≤ j → j < numThreads →
      (endRowOf i rows numThreads - startRowOf i rows numThreads) -
        (endRowOf j rows numThreads - startRowOf j rows numThreads) ≤ 1) ∧
    (rows < numThreads →
      numThreads - rows ≤
        (((List.range numThreads.toNat).filter fun i : Nat =>
          decide (endRowOf (i : Int) rows numThreads =
            startRowOf (i : Int) rows numThreads)).length : Int)) := by
  obtain ⟨H, rfl⟩ := Int.eq_ofNat_of_zero_le hH
  obtain ⟨N, rfl⟩ := Int.eq_ofNat_of_zero_le (by omega : 0 ≤ numThreads)
  have hN' : 0 < N := by omega
  have hB' : N * H < 2147483648 := by exact_mod_cast hB
  have hb : ∀ a : Nat, a ≤ N → a * H < 2147483648 := fun a ha =>
    lt_of_le_of_lt (Nat.mul_le_mul_right _ ha) hB'
  have hsize : ∀ i : Int, 0 ≤ i → i < (N : Int) →
      endRowOf i (H : Int) (N : Int) - startRowOf i (H : Int) (N : Int) = ((H / N : Nat) : Int) ∨
      endRowOf i (H : Int) (N : Int) - startRowOf i (H : Int) (N : Int) =
        (((H + N - 1) / N : Nat) : Int) := by
    intro i hi hiN
    obtain ⟨k, rfl⟩ := Int.eq_ofNat_of_zero_le hi
    rw [endRowOf_natCast _ _ _ (hb (k + 1) (by omega)),
      startRowOf_natCast _ _ _ (hb k (by omega))]
    have hm := cut_mono H N k (k + 1) (by omega)
    rcases cut_size H N k hN' with h | h
    · left; omega
    · right; omega
  have hceil : (H + N - 1) / N ≤ H / N + 1 := by
    have : (H + N - 1) / N ≤ (H + N) / N := Nat.div_le_div_right (by omega)
    rwa [Nat.add_div_right _ hN'] at this
  have hfloor : H / N ≤ (H + N - 1) / N := Nat.div_le_div_right (by omega)
  have hc1 : (((H + N - 1) / N : Nat) : Int) = ((H : Int) + (N : Int) - 1) / (N : Int) := by
    have : ((H : Int) + (N : Int) - 1) = ((H + N - 1 : Nat) : Int) := by omega
    rw [this]; rfl
  refine ⟨?_, ?_, ?_⟩
  · intro i hi hlt
    rcases hsize i hi hlt with h | h
    · left; rw [h]; rfl
    · right; rw [h, hc1]
  · intro i j hi hiN hj hjN
    rcases hsize i hi hiN with h1 | h1 <;> rcases hsize j hj hjN with h2 | h2 <;>
      rw [h1, h2] <;> omega
  · intro _
    have hcnt := cut_empty_count H N N
    rw [cut_last H N hN'] at hcnt
    have hf : ((List.range (N : Int).toNat).filter fun i : Nat =>
          decide (endRowOf (i : Int) (H : Int) (N : Int) =
            startRowOf (i : Int) (H : Int) (N : Int))) =
        ((List.range N).filter fun i => decide ((i + 1) * H / N = i * H / N)) := by
      rw [Int.toNat_ofNat]
      apply List.filter_congr
      intro i hi
      have hiN : i < N := List.mem_range.mp hi
      rw [endRowOf_natCast _ _ _ (hb (i + 1) (by omega)),
        startRowOf_natCast _ _ _ (hb i (by omega))]
      congr 1
      exact propext Nat.cast_inj
    rw [hf]
    omega

/-- Witness of the amended C7 for 3 rows and 5 threads. -/
theorem C7_partition_balance_witness :
    (0 : Int) ≤ 3 ∧ (1 : Int) ≤ 5 ∧ (5 : Int) * 3 < 2147483648 ∧
    ((∀ i, 0 ≤ i → i < 5 →
      endRowOf i 3 5 - startRowOf i 3 5 = 3 / 5 ∨
      endRowOf i 3 5 - startRowOf i 3 5 = (3 + 5 - 1) / 5) ∧
    (∀ i j, 0 ≤ i → i < 5 → 0 ≤ j → j < 5 →
      (endRowOf i 3 5 - startRowOf i 3 5) - (endRowOf j 3 5 - startRowOf j 3 5) ≤ 1) ∧
    ((3 : Int) < 5 →
      5 - 3 ≤
        (((List.range (5 : Int).toNat).filter fun i : Nat =>
          decide (endRowOf (i : Int) 3 5 = startRowOf (i : Int) 3 5)).length : Int))) :=
  ⟨by decide, by decide, by decide,
    C7_partition_balance 3 5 (by decide) (by decide) (by decide)⟩

/-! ## Small grids and single workers -/

theorem rowOffers_values (r : Int) (l : List Int) (j : Int) :
    (rowOffers r l j).map Pixel.value = l := by
  induction l generalizing j with
  | nil => rfl
  | cons v vs ih => simp [rowOffers, ih]

theorem chunkOffers_values (s : Int) (l : List (List Int)) (i : Int) :
    (chunkOffers s l i).map Pixel.value = l.flatten := by
  induction l generalizing i with
  | nil => rfl
  | cons r rest ih => simp [chunkOffers, rowOffers_values, ih]

theorem allCells_values (image : List (List Int)) :
    (allCells image).map Pixel.value = image.flatten :=
  chunkOffers_values 0 image 0

theorem topInv_small (h xs : List Pixel) (hI : TopInv h xs) (hs : xs.length ≤ 50) :
    h.Perm xs := by
  obtain ⟨_, hlen, ev, hp, _⟩ := hI
  have h1 := hp.length_eq
  rw [List.length_append] at h1
  have : ev = [] := List.eq_nil_of_length_eq_zero (by omega)
  subst this
  simpa using hp

theorem topResult_small (cells r : List Pixel) (h : TopResult cells r)
    (hs : cells.length ≤ 50) : r.Perm cells := by
  obtain ⟨hlen, _, ev, hp, _⟩ := h
  have h1 := hp.length_eq
  rw [List.length_append] at h1
  have : ev = [] := List.eq_nil_of_length_eq_zero (by omega)
  subst this
  simpa using hp

theorem singleton_of_flatten (qs : List (List Pixel)) (cells : List Pixel)
    (hl : qs.length = 1) (hf : qs.flatten = cells) : qs = [cells] := by
  match qs, hl with
  | [q], _ => simpa using hf

theorem concurrent_single_sched (image : List (List Int)) (sched : List Nat) :
    FindTopPixelsConcurrently image 1 sched = FindTopPixelsConcurrently image 1 [] := by
  unfold FindTopPixelsConcurrently
  cases hq : dispatch workerOffers image 1 (1 : Int).toNat 0 with
  | none => rfl
  | some qs =>
    have hl : qs.length = 1 := dispatch_length _ _ _ _ _ _ hq
    match qs, hl with
    | [q], _ => simp only [interleave_single]

theorem cellCount_empty (image : List (List Int)) (hE : ∀ r ∈ image, r = []) :
    cellCount image = 0 := by
  induction image with
  | nil => rfl
  | cons r rest ih =>
    have h1 := hE r (List.mem_cons_self r rest)
    have h2 := ih (fun x hx => hE x (List.mem_cons_of_mem r hx))
    subst h1
    simpa [cellCount] using h2

theorem strict_of_nodup (r : List Pixel) (hs : r.Pairwise (fun a b => a.value ≥ b.value))
    (hn : (r.map Pixel.value).Nodup) : r.Pairwise (fun a b => a.value > b.value) := by
  rw [List.Nodup, List.pairwise_map] at hn
  exact (hs.and hn).imp (fun h => lt_of_le_of_ne h.1 (fun e => h.2 e.symm))

theorem eq_of_perm_strict (r1 r2 : List Pixel) (hp : r1.Perm r2)
    (h1 : r1.Pairwise (fun a b => a.value > b.value))
    (h2 : r2.Pairwise (fun a b => a.value > b.value)) : r1 = r2 := by
  haveI : IsAntisymm Pixel (fun a b => a.value > b.value) :=
    ⟨fun a b hab hba => absurd hab (not_lt.mpr (le_of_lt hba))⟩
  exact List.eq_of_perm_of_sorted hp h1 h2

/-- C10 as stated fails in its general part. A vector of `2 ^ 32 + 1` rows of which only row 1
holds a cell, of value 7, has at most 50 cells and pairwise distinct values, but
`const int rows = image.size()` is 1: with one thread only the empty row 0 is ranked and both
entry points return the empty sequence, not the cell `(1, 0)`. And a vector of `2 ^ 31` empty
rows has `rows = -2147483648`: the chunk of the single thread would be the range
`[0, -2147483648)` of rows, and neither entry point returns anything. -/
theorem C10_counterexample :
    (cellCount ([] :: [7] :: List.replicate 4294967295 []) ≤ 50 ∧
      ([] :: [7] :: List.replicate 4294967295 [] : List (List Int)).flatten.Nodup ∧
      (∀ sched : List Nat,
        FindTopPixelsConcurrently ([] :: [7] :: List.replicate 4294967295 []) 1 sched =
          some []) ∧
      FindTopPixelsAsync ([] :: [7] :: List.replicate 4294967295 []) 1 = some [] ∧
      cellAt ([] :: [7] :: List.replicate 4294967295 []) 1 0 7) ∧
    (cellCount (List.replicate 2147483648 ([] : List Int)) ≤ 50 ∧
      (List.replicate 2147483648 ([] : List Int)).flatten.Nodup ∧
      (∀ sched : List Nat,
        FindTopPixelsConcurrently (List.replicate 2147483648 []) 1 sched = none) ∧
      FindTopPixelsAsync (List.replicate 2147483648 []) 1 = none) := by
  have hE : ∀ (n : Nat), ∀ r ∈ List.replicate n ([] : List Int), r = [] :=
    fun n r hr => (List.mem_replicate.mp hr).2
  have hl : ([7] :: List.replicate 4294967295 ([] : List Int)).length = 4294967296 := by
    rw [List.length_cons, List.length_replicate]
  have hc : cellCount ([] :: [7] :: List.replicate 4294967295 []) = 1 := by
    have h0 := cellCount_empty _ (hE 4294967295)
    unfold cellCount at h0 ⊢
    rw [List.map_cons, List.map_cons, List.sum_cons, List.sum_cons, h0]
    rfl
  have hf : ([] :: [7] :: List.replicate 4294967295 [] : List (List Int)).flatten = [7] := by
    rw [List.flatten_cons, List.flatten_cons, List.flatten_eq_nil_iff.mpr (hE 4294967295)]
    rfl
  refine ⟨⟨?_, ?_, ?_, ?_, ?_⟩, ?_, ?_, ?_, ?_⟩
  · rw [hc]; decide
  · rw [hf]; exact List.nodup_singleton 7
  · intro sched
    exact concurrent_wrapped_empty _ hl sched
  · exact async_wrapped_empty _ hl
  · show (([] :: [7] :: List.replicate 4294967295 [] : List (List Int))[1]?).bind
      (fun rowl => rowl[0]?) = some 7
    rw [List.getElem?_cons_succ, List.getElem?_cons_zero]
    rfl
  · rw [cellCount_empty _ (hE 2147483648)]
    exact Nat.zero_le _
  · rw [List.flatten_eq_nil_iff.mpr (hE 2147483648)]
    exact List.nodup_nil
  · intro sched
    exact concurrent_negative_rows _ (List.length_replicate _ _) sched
  · exact async_negative_rows _ (List.length_replicate _ _)

/-- C10, amended. Worked scenario: for the image `[[4,1],[3,2]]` and one thread both entry
points return exactly `[(4,0,0), (3,1,0), (2,1,1), (1,0,1)]`; and for every image of fewer than
`2 ^ 31` rows with at most 50 cells and pairwise distinct values, with one thread both return
the same sequence, which holds all the cells sorted by value from the largest. -/
theorem C10_single_worker_scenario (image : List (List Int)) (sched : List Nat)
    (hR : image.length < 2147483648)
    (h50 : cellCount image ≤ 50) (hd : image.flatten.Nodup) :
    FindTopPixelsConcurrently [[4, 1], [3, 2]] 1 sched =
        some [⟨4, 0, 0⟩, ⟨3, 1, 0⟩, ⟨2, 1, 1⟩, ⟨1, 0, 1⟩] ∧
    FindTopPixelsAsync [[4, 1], [3, 2]] 1 =
        some [⟨4, 0, 0⟩, ⟨3, 1, 0⟩, ⟨2, 1, 1⟩, ⟨1, 0, 1⟩] ∧
    ∃ result, FindTopPixelsConcurrently image 1 sched = some result ∧
      FindTopPixelsAsync image 1 = some result ∧
      result.Perm (allCells image) ∧
      result.Pairwise (fun a b => a.value > b.value) := by
  have hB : (1 : Int) * (image.length : Int) < 2147483648 := by omega
  refine ⟨?_, by decide, ?_⟩
  · rw [concurrent_single_sched]; decide
  · have hcl : (allCells image).length ≤ 50 := by rw [allCells_length]; exact h50
    obtain ⟨r1, hr1, ht1⟩ := concurrent_spec image 1 sched (le_refl _) hB
    obtain ⟨qs, d, _, hl, hf, hdp, hds, hr2⟩ := async_spec image 1 (le_refl _) hB
    have hqs := singleton_of_flatten qs _ (by simpa using hl) hf
    subst hqs
    have hloc := topInv_small _ _ (topInv_run (allCells image)) hcl
    have hdc : d.Perm (allCells image) := by
      refine hdp.trans ?_
      simpa using hloc
    have htake : d.take 51 = d := List.take_of_length_le (by rw [hdc.length_eq]; omega)
    rw [htake] at hr2
    have hp1 := topResult_small _ _ ht1 hcl
    have hp2 : d.reverse.Perm (allCells image) := (List.reverse_perm d).trans hdc
    have hn : ∀ r : List Pixel, r.Perm (allCells image) → (r.map Pixel.value).Nodup := by
      intro r hr
      have := (hr.map Pixel.value).nodup_iff.mpr (by rw [allCells_values]; exact hd)
      exact this
    have hs1 := strict_of_nodup r1 ht1.2.1 (hn r1 hp1)
    have hs2 := strict_of_nodup d.reverse (pairwise_reverse_ge d hds) (hn _ hp2)
    have heq : d.reverse = r1 := eq_of_perm_strict _ _ (hp2.trans hp1.symm) hs2 hs1
    rw [heq] at hr2
    exact ⟨r1, hr1, hr2, hp1, hs1⟩

/-- Witness of the amended C10 on the image of the scenario. -/
theorem C10_single_worker_scenario_witness :
    ([[4, 1], [3, 2]] : List (List Int)).length < 2147483648 ∧
    cellCount [[4, 1], [3, 2]] ≤ 50 ∧ ([[4, 1], [3, 2]] : List (List Int)).flatten.Nodup ∧
    (FindTopPixelsConcurrently [[4, 1], [3, 2]] 1 [0, 0] =
        some [⟨4, 0, 0⟩, ⟨3, 1, 0⟩, ⟨2, 1, 1⟩, ⟨1, 0, 1⟩] ∧
    FindTopPixelsAsync [[4, 1], [3, 2]] 1 =
        some [⟨4, 0, 0⟩, ⟨3, 1, 0⟩, ⟨2, 1, 1⟩, ⟨1, 0, 1⟩] ∧
    ∃ result, FindTopPixelsConcurrently [[4, 1], [3, 2]] 1 [0, 0] = some result ∧
      FindTopPixelsAsync [[4, 1], [3, 2]] 1 = some result ∧
      result.Perm (allCells [[4, 1], [3, 2]]) ∧
      result.Pairwise (fun a b => a.value > b.value)) :=
  ⟨by decide, by decide, by decide,
    C10_single_worker_scenario [[4, 1], [3, 2]] [0, 0] (by decide) (by decide) (by decide)⟩

/-! ## Values of a top-50 selection are determined by the cells -/

theorem count_value_split (l : List Pixel) (a : Int) :
    (l.map Pixel.value).count a + l.countP (fun p => decide (a < p.value)) =
      l.countP (fun p => decide (a - 1 < p.value)) := by
  induction l with
  | nil => simp
  | cons p ps ih =>
    simp only [List.map_cons, List.count_cons, List.countP_cons]
    have : p.value < a ∨ p.value = a ∨ a < p.value := lt_trichotomy _ _
    rcases this with h | h | h
    · have h1 : ¬ (a < p.value) := by omega
      have h2 : ¬ (a - 1 < p.value) := by omega
      have h3 : ¬ (p.value = a) := by omega
      simp [h1, h2, h3]
      omega
    · have h1 : ¬ (a < p.value) := by omega
      have h2 : (a - 1 < p.value) := by omega
      simp [h1, h2, h]
      omega
    · have h2 : (a - 1 < p.value) := by omega
      have h3 : ¬ (p.value = a) := by omega
      simp [h, h2, h3]
      omega

theorem topResult_countP (cells r : List Pixel) (h : TopResult cells r) (v : Int) :
    r.countP (fun p => decide (v < p.value)) =
      min (min 50 cells.length) (cells.countP (fun p => decide (v < p.value))) := by
  obtain ⟨hlen, _, ev, hp, hle⟩ := h
  have hc := hp.countP_eq (fun p => decide (v < p.value))
  rw [List.countP_append] at hc
  have hub : r.countP (fun p => decide (v < p.value)) ≤ r.length := List.countP_le_length _
  by_cases hex : ∃ e ∈ r, e.value ≤ v
  · obtain ⟨e, he, hev⟩ := hex
    have hz : ev.countP (fun p => decide (v < p.value)) = 0 := by
      rw [List.countP_eq_zero]
      intro c hc
      have := hle c hc e he
      simp; omega
    omega
  · have hall : r.countP (fun p => decide (v < p.value)) = r.length := by
      rw [List.countP_eq_length]
      intro e he
      have : ¬ e.value ≤ v := fun h => hex ⟨e, he, h⟩
      simp; omega
    omega

theorem topResult_values_eq (cells r1 r2 : List Pixel) (h1 : TopResult cells r1)
    (h2 : TopResult cells r2) : r1.map Pixel.value = r2.map Pixel.value := by
  have hperm : (r1.map Pixel.value).Perm (r2.map Pixel.value) := by
    rw [List.perm_iff_count]
    intro a
    have e1 := count_value_split r1 a
    have e2 := count_value_split r2 a
    rw [topResult_countP cells r1 h1, topResult_countP cells r1 h1] at e1
    rw [topResult_countP cells r2 h2, topResult_countP cells r2 h2] at e2
    omega
  have s1 : (r1.map Pixel.value).Pairwise (fun a b => a ≥ b) := by
    rw [List.pairwise_map]; exact h1.2.1
  have s2 : (r2.map Pixel.value).Pairwise (fun a b => a ≥ b) := by
    rw [List.pairwise_map]; exact h2.2.1
  exact List.eq_of_perm_of_sorted hperm s1 s2

theorem topResult_above_min (cells r1 r2 : List Pixel) (h1 : TopResult cells r1)
    (h2 : TopResult cells r2) (e : Pixel) (he : e ∈ r1)
    (hm : ∃ m ∈ r1, m.value < e.value) : e ∈ r2 := by
  by_contra hn
  obtain ⟨m, hm1, hm2⟩ := hm
  have hv := topResult_values_eq cells r1 r2 h1 h2
  have : m.value ∈ r2.map Pixel.value := by
    rw [← hv]; exact List.mem_map.mpr ⟨m, hm1, rfl⟩
  obtain ⟨x, hx, hxv⟩ := List.mem_map.mp this
  have := topResult_out cells r2 h2 e (topResult_mem cells r1 h1 e he) hn x hx
  omega

theorem topResult_coords_distinct (cells r1 r2 : List Pixel) (h1 : TopResult cells r1)
    (h2 : TopResult cells r2) (hd : (cells.map Pixel.value).Nodup) (rc : Int × Int)
    (h : rc ∈ coords r1) : rc ∈ coords r2 := by
  obtain ⟨e, he, rfl⟩ := List.mem_map.mp h
  have hv := topResult_values_eq cells r1 r2 h1 h2
  have : e.value ∈ r2.map Pixel.value := by
    rw [← hv]; exact List.mem_map.mpr ⟨e, he, rfl⟩
  obtain ⟨x, hx, hxv⟩ := List.mem_map.mp this
  have hxe : x = e :=
    List.inj_on_of_nodup_map hd (topResult_mem cells r2 h2 x hx)
      (topResult_mem cells r1 h1 e he) hxv
  subst hxe
  exact List.mem_map.mpr ⟨x, hx, rfl⟩

/-! ## Dependence on the schedule and on the worker count -/

set_option maxRecDepth 1000000

theorem zeros_thread0_first :
    (FindTopPixelsConcurrently (zeroGrid 51 1) 2 []).map
      (fun r => decide (((0 : Int), (0 : Int)) ∈ coords r)) = some false := by
  decide!

theorem zeros_thread1_first :
    (FindTopPixelsConcurrently (zeroGrid 51 1) 2 (List.replicate 26 1)).map
      (fun r => decide (((0 : Int), (0 : Int)) ∈ coords r)) = some true := by
  decide!

/-- C9 as stated fails: on the 51 x 1 grid of zeros with two threads, the runs in which thread 0
and thread 1 respectively get the lock first return different sets of coordinates. -/
theorem C9_counterexample :
    ¬ ∀ (image : List (List Int)) (n1 n2 : Int) (s1 s2 : List Nat) (r1 r2 : List Pixel),
      1 ≤ n1 → 1 ≤ n2 →
      FindTopPixelsConcurrently image n1 s1 = some r1 →
      FindTopPixelsConcurrently image n2 s2 = some r2 →
      ∀ rc, rc ∈ coords r1 ↔ rc ∈ coords r2 := by
  intro h
  have e1 := zeros_thread0_first
  have e2 := zeros_thread1_first
  cases h1 : FindTopPixelsConcurrently (zeroGrid 51 1) 2 [] with
  | none => rw [h1] at e1; simp at e1
  | some r1 =>
    cases h2 : FindTopPixelsConcurrently (zeroGrid 51 1) 2 (List.replicate 26 1) with
    | none => rw [h2] at e2; simp at e2
    | some r2 =>
      rw [h1] at e1
      rw [h2] at e2
      simp only [Option.map_some', Option.some.injEq, decide_eq_false_iff_not,
        decide_eq_true_eq] at e1 e2
      have := h (zeroGrid 51 1) 2 2 [] (List.replicate 26 1) r1 r2 (by decide) (by decide)
        h1 h2 (0, 0)
      exact e1 (this.mpr e2)

/-- C9, amended. Value determinism of the shared-state strategy: for every image, every two
worker counts `≥ 1` whose product with the number of rows is below `2 ^ 31` and every two
orders of the offers, both runs return, the two results carry the same sequence of values,
every entry of one whose value is strictly above the smallest returned value is an entry of the
other, and when the values of the image are pairwise distinct the two sets of `(row, col)`
coordinates are equal. -/
theorem C9_shared_state_value_determinism (image : List (List Int)) (n1 n2 : Int)
    (s1 s2 : List Nat) (h1 : 1 ≤ n1) (h2 : 1 ≤ n2)
    (hB1 : n1 * (image.length : Int) < 2147483648)
    (hB2 : n2 * (image.length : Int) < 2147483648) :
    ∃ r1 r2, FindTopPixelsConcurrently image n1 s1 = some r1 ∧
      FindTopPixelsConcurrently image n2 s2 = some r2 ∧
      r1.map Pixel.value = r2.map Pixel.value ∧
      (∀ e ∈ r1, (∃ m ∈ r1, m.value < e.value) → e ∈ r2) ∧
      (image.flatten.Nodup → ∀ rc, rc ∈ coords r1 ↔ rc ∈ coords r2) := by
  obtain ⟨r1, hr1, ht1⟩ := concurrent_spec image n1 s1 h1 hB1
  obtain ⟨r2, hr2, ht2⟩ := concurrent_spec image n2 s2 h2 hB2
  refine ⟨r1, r2, hr1, hr2, topResult_values_eq _ r1 r2 ht1 ht2,
    topResult_above_min _ r1 r2 ht1 ht2, ?_⟩
  intro hd rc
  have hd' : ((allCells image).map Pixel.value).Nodup := by rw [allCells_values]; exact hd
  exact ⟨topResult_coords_distinct _ r1 r2 ht1 ht2 hd' rc,
    topResult_coords_distinct _ r2 r1 ht2 ht1 hd' rc⟩

/-- Witness of the amended C9 on the 51 x 1 grid of zeros and the two runs of the
counterexample. -/
theorem C9_shared_state_value_determinism_witness :
    (1 : Int) ≤ 2 ∧ (2 : Int) * ((zeroGrid 51 1).length : Int) < 2147483648 ∧
    ∃ r1 r2, FindTopPixelsConcurrently (zeroGrid 51 1) 2 [] = some r1 ∧
      FindTopPixelsConcurrently (zeroGrid 51 1) 2 (List.replicate 26 1) = some r2 ∧
      r1.map Pixel.value = r2.map Pixel.value ∧
      (∀ e ∈ r1, (∃ m ∈ r1, m.value < e.value) → e ∈ r2) ∧
      ((zeroGrid 51 1).flatten.Nodup → ∀ rc, rc ∈ coords r1 ↔ rc ∈ coords r2) :=
  ⟨by decide, by decide,
    C9_shared_state_value_determinism (zeroGrid 51 1) 2 2 [] (List.replicate 26 1)
      (by decide) (by decide) (by decide) (by decide)⟩

/-! ## The merged queue of `FindTopPixelsAsync` -/

theorem flatten_length_locals (qs : List (List Pixel)) :
    ((qs.map fun l => l.foldl offer []).flatten).length =
      (qs.map fun q => min 50 q.length).sum := by
  induction qs with
  | nil => rfl
  | cons q qs ih =>
    simp only [List.map_cons, List.flatten_cons, List.length_append, List.sum_cons, ih]
    rw [(topInv_run q).2.1]

theorem async_length_run (image : List (List Int)) (numThreads : Int) (r : List Pixel)
    (h : FindTopPixelsAsync image numThreads = some r) :
    ∃ qs : List (List Pixel),
      dispatch workerOffers image numThreads numThreads.toNat 0 = some qs ∧
      r.length = min 51 (qs.map fun q => min 50 q.length).sum := by
  obtain ⟨qs, d, hq, hdp, _, rfl⟩ := async_run image numThreads r h
  refine ⟨qs, hq, ?_⟩
  rw [List.length_reverse, List.length_take, hdp.length_eq, flatten_length_locals]

theorem async_length (image : List (List Int)) (numThreads : Int) (hN : 1 ≤ numThreads)
    (hB : numThreads * (image.length : Int) < 2147483648) :
    ∃ (qs : List (List Pixel)) (r : List Pixel),
      dispatch workerOffers image numThreads numThreads.toNat 0 = some qs ∧
      FindTopPixelsAsync image numThreads = some r ∧
      r.length = min 51 (qs.map fun q => min 50 q.length).sum := by
  obtain ⟨qs, d, hq, _, _, hdp, _, hr⟩ := async_spec image numThreads hN hB
  refine ⟨qs, _, hq, hr, ?_⟩
  rw [List.length_reverse, List.length_take, hdp.length_eq, flatten_length_locals]

/-! ## Evaluation at the failing inputs -/

theorem async_ramp_two :
    FindTopPixelsAsync (rampGrid 2 26) 2 =
      some ((List.range 51).reverse.map fun v => ⟨(v : Int), ((v / 26 : Nat) : Int),
        ((v % 26 : Nat) : Int)⟩) := by
  decide!

theorem async_ramp_one :
    FindTopPixelsAsync (rampGrid 2 26) 1 =
      some ((List.range 50).reverse.map fun v => ⟨((v + 2 : Nat) : Int),
        (((v + 2) / 26 : Nat) : Int), (((v + 2) % 26 : Nat) : Int)⟩) := by
  decide!

/-- C2 at its failing input: on the 2 x 26 grid holding 0, ..., 51 with two threads,
`FindTopPixelsAsync` returns the entry of value 0 and leaves out the cell `(1, 25)` of
value 51. -/
theorem C2_async_failing_input :
    ∃ result, FindTopPixelsAsync (rampGrid 2 26) 2 = some result ∧
      (⟨0, 0, 0⟩ : Pixel) ∈ result ∧ ((1 : Int), (25 : Int)) ∉ coords result ∧
      cellAt (rampGrid 2 26) 1 25 51 :=
  ⟨_, async_ramp_two, by decide, by decide, by decide⟩

/-- C4 at its failing input: on the 10 x 10 grid of zeros with two threads,
`FindTopPixelsAsync` returns 51 entries, while `min 50 (number of cells)` is 50. -/
theorem C4_async_failing_input :
    (FindTopPixelsAsync (zeroGrid 10 10) 2).map List.length = some 51 ∧
      min 50 (cellCount (zeroGrid 10 10)) = 50 := by
  obtain ⟨qs, r, hq, hr, hl⟩ := async_length (zeroGrid 10 10) 2 (by decide) (by decide)
  have he : (dispatch workerOffers (zeroGrid 10 10) 2 (2 : Int).toNat 0).map
      (fun qs => (qs.map fun q => min 50 q.length).sum) = some 100 := by decide
  rw [hq] at he
  simp only [Option.map_some', Option.some.injEq] at he
  rw [he] at hl
  refine ⟨?_, by decide⟩
  rw [hr]
  simp [hl]

/-- C8 at its failing input: on the 2 x 26 grid holding 0, ..., 51, `FindTopPixelsAsync` with
two threads returns the cell `(0, 0)` and with one thread does not. -/
theorem C8_async_failing_input :
    ∃ r1 r2, FindTopPixelsAsync (rampGrid 2 26) 1 = some r1 ∧
      FindTopPixelsAsync (rampGrid 2 26) 2 = some r2 ∧
      ((0 : Int), (0 : Int)) ∈ coords r2 ∧ ((0 : Int), (0 : Int)) ∉ coords r1 :=
  ⟨_, _, async_ramp_one, async_ramp_two, by decide, by decide⟩

/-! ## Entries of the results are cells of the image -/

theorem locals_rest (qs : List (List Pixel)) :
    ∃ rest : List Pixel, ((qs.map fun l => l.foldl offer []).flatten ++ rest).Perm qs.flatten := by
  induction qs with
  | nil => exact ⟨[], by simp⟩
  | cons q qs ih =>
    obtain ⟨rest, hr⟩ := ih
    obtain ⟨_, _, ev, hev, _⟩ := topInv_run q
    refine ⟨ev ++ rest, ?_⟩
    simp only [List.map_cons, List.flatten_cons, List.append_assoc]
    have e1 : ((qs.map fun l => l.foldl offer []).flatten ++ (ev ++ rest)).Perm
        (ev ++ ((qs.map fun l => l.foldl offer []).flatten ++ rest)) := by
      rw [← List.append_assoc, ← List.append_assoc]
      exact List.Perm.append_right rest List.perm_append_comm
    have e2 : (q.foldl offer [] ++ (ev ++ ((qs.map fun l => l.foldl offer []).flatten ++ rest))).Perm
        (q ++ qs.flatten) := by
      rw [← List.append_assoc]
      exact List.Perm.append hev hr
    exact (List.Perm.append_left _ e1).trans e2

theorem async_rest_run (image : List (List Int)) (numThreads : Int) (r : List Pixel)
    (h : FindTopPixelsAsync image numThreads = some r) :
    ∃ rest : List Pixel, (r ++ rest).Perm (allCells image) := by
  obtain ⟨qs, d, hq, hdp, _, rfl⟩ := async_run image numThreads r h
  obtain ⟨rest1, hrest1⟩ := locals_rest qs
  obtain ⟨rest0, hrest0⟩ := dispatch_rest image numThreads _ _ qs hq
  refine ⟨d.drop 51 ++ rest1 ++ rest0, ?_⟩
  rw [← List.append_assoc, ← List.append_assoc]
  refine (List.Perm.append_right rest0 ?_).trans hrest0
  refine (List.Perm.append_right rest1 ?_).trans hrest1
  have e : ((d.take 51).reverse ++ d.drop 51).Perm (d.take 51 ++ d.drop 51) :=
    List.Perm.append_right _ (List.reverse_perm _)
  rw [List.take_append_drop] at e
  exact e.trans hdp

theorem concurrent_rest_run (image : List (List Int)) (numThreads : Int) (sched : List Nat)
    (r : List Pixel) (h : FindTopPixelsConcurrently image numThreads sched = some r) :
    ∃ rest : List Pixel, (r ++ rest).Perm (allCells image) := by
  obtain ⟨qs, hq, _, _, ev, hp, _⟩ := concurrent_run image numThreads sched r h
  obtain ⟨rest0, hrest0⟩ := dispatch_rest image numThreads _ _ qs hq
  refine ⟨ev ++ rest0, ?_⟩
  rw [← List.append_assoc]
  exact (List.Perm.append_right rest0 hp).trans hrest0

theorem rowOffers_coords_nodup (r : Int) (l : List Int) (j : Int) :
    (coords (rowOffers r l j)).Nodup := by
  induction l generalizing j with
  | nil => simp [rowOffers, coords]
  | cons v vs ih =>
    simp only [rowOffers, coords, List.map_cons, List.nodup_cons]
    refine ⟨?_, ih (j + 1)⟩
    intro hmem
    obtain ⟨p, hp, he⟩ := List.mem_map.mp hmem
    obtain ⟨c, _, _, h3⟩ := (mem_rowOffers r vs (j + 1) p).mp hp
    have : p.col = j := congrArg Prod.snd he
    omega

theorem chunkOffers_coords_nodup (s : Int) (l : List (List Int)) (i : Int) :
    (coords (chunkOffers s l i)).Nodup := by
  induction l generalizing i with
  | nil => simp [chunkOffers, coords]
  | cons r rest ih =>
    simp only [chunkOffers, coords, List.map_append]
    rw [List.nodup_append]
    refine ⟨rowOffers_coords_nodup (s + i) r 0, ih (i + 1), ?_⟩
    intro rc h1 h2
    obtain ⟨p, hp, he⟩ := List.mem_map.mp h1
    obtain ⟨q, hq, hf⟩ := List.mem_map.mp h2
    obtain ⟨c, _, hrow, _⟩ := (mem_rowOffers (s + i) r 0 p).mp hp
    obtain ⟨k, c2, rowl, _, _, hrow2, _⟩ := (mem_chunkOffers s rest (i + 1) q).mp hq
    have e1 : p.row = rc.1 := congrArg Prod.fst he
    have e2 : q.row = rc.1 := congrArg Prod.fst hf
    omega

theorem coords_nodup_of_rest (cells r rest : List Pixel) (h : (r ++ rest).Perm cells)
    (hc : (coords cells).Nodup) : (coords r).Nodup := by
  have h1 : (coords (r ++ rest)).Nodup := (h.map _).nodup_iff.mpr hc
  simp only [coords, List.map_append] at h1
  exact List.Nodup.of_append_left h1

/-- C11 as stated fails: on a grid of 1048576 empty rows with 2048 threads the product
`2048 * 1048576` does not fit in `int`, the last chunk would be the range
`[1048064, -1048576)` of rows, which lies outside the image, and neither entry point has a
result. -/
theorem C11_counterexample :
    (1 : Int) ≤ 2048 ∧ (∀ r ∈ zeroGrid 1048576 0, r = []) ∧
    (∀ sched : List Nat, FindTopPixelsConcurrently (zeroGrid 1048576 0) 2048 sched = none) ∧
    FindTopPixelsAsync (zeroGrid 1048576 0) 2048 = none :=
  ⟨by decide, fun _ hr => (List.mem_replicate.mp hr).2,
    fun sched => concurrent_overflow (zeroGrid 1048576 0) (List.length_replicate _ _) sched,
    async_overflow (zeroGrid 1048576 0) (List.length_replicate _ _)⟩

/-- C11, amended. Empty grids: when the image has no row or every row is empty, for every
`numThreads ≥ 1` with `numThreads * rows < 2 ^ 31` `FindTopPixelsConcurrently` and
`FindTopPixelsAsync` are defined (every chunk range lies inside the image, nothing divides by
zero) and return the empty sequence; so they do for every `numThreads ≥ 1` when the image has no
row; and for every `numThreads ≥ 1`, whatever they return is the empty sequence. -/
theorem C11_empty_grids (image : List (List Int)) (numThreads : Int) (sched : List Nat)
    (hN : 1 ≤ numThreads) (hE : image = [] ∨ ∀ r ∈ image, r = []) :
    (numThreads * (image.length : Int) < 2147483648 →
      FindTopPixelsConcurrently image numThreads sched = some [] ∧
        FindTopPixelsAsync image numThreads = some []) ∧
    (image = [] →
      FindTopPixelsConcurrently image numThreads sched = some [] ∧
        FindTopPixelsAsync image numThreads = some []) ∧
    (∀ result, FindTopPixelsConcurrently image numThreads sched = some result →
      result = []) ∧
    (∀ result, FindTopPixelsAsync image numThreads = some result → result = []) := by
  have hE' : ∀ r ∈ image, r = [] := by
    rcases hE with h | h
    · subst h; intro r hr; simp at hr
    · exact h
  have hc : (allCells image).length = 0 := by
    rw [allCells_length, cellCount_empty image hE']
  have h1 : ∀ result, FindTopPixelsConcurrently image numThreads sched = some result →
      result = [] := by
    intro r hr
    obtain ⟨rest, hp⟩ := concurrent_rest_run image numThreads sched r hr
    have hl := hp.length_eq
    rw [List.length_append, hc] at hl
    exact List.eq_nil_of_length_eq_zero (by omega)
  have h2 : ∀ result, FindTopPixelsAsync image numThreads = some result → result = [] := by
    intro r hr
    obtain ⟨rest, hp⟩ := async_rest_run image numThreads r hr
    have hl := hp.length_eq
    rw [List.length_append, hc] at hl
    exact List.eq_nil_of_length_eq_zero (by omega)
  have h3 : numThreads * (image.length : Int) < 2147483648 →
      FindTopPixelsConcurrently image numThreads sched = some [] ∧
        FindTopPixelsAsync image numThreads = some [] := by
    intro hB
    obtain ⟨r, hr, _⟩ := concurrent_spec image numThreads sched hN hB
    obtain ⟨_, d, _, _, _, _, _, hr2⟩ := async_spec image numThreads hN hB
    constructor
    · rw [hr, h1 r hr]
    · rw [hr2, h2 _ hr2]
  refine ⟨h3, ?_, h1, h2⟩
  intro h0
  apply h3
  rw [h0]
  simp

/-- Witness of the amended C11 on a grid of three empty rows with five threads. -/
theorem C11_empty_grids_witness :
    (1 : Int) ≤ 5 ∧ (([[], [], []] : List (List Int)) = [] ∨
      ∀ r ∈ ([[], [], []] : List (List Int)), r = []) ∧
    (5 : Int) * (([[], [], []] : List (List Int)).length : Int) < 2147483648 ∧
    (FindTopPixelsConcurrently [[], [], []] 5 [3, 0] = some [] ∧
      FindTopPixelsAsync [[], [], []] 5 = some []) :=
  ⟨by decide, Or.inr (by decide), by decide,
    (C11_empty_grids [[], [], []] 5 [3, 0] (by decide) (Or.inr (by decide))).1 (by decide)⟩

/-- C12. No duplicate cells: for every image, every `numThreads ≥ 1` and every order of the
offers, whatever `FindTopPixelsConcurrently` or `FindTopPixelsAsync` returns holds no two
entries with the same `(row, col)` pair. Both do return a sequence when
`numThreads * rows < 2 ^ 31`. -/
theorem C12_no_duplicate_cells (image : List (List Int)) (numThreads : Int)
    (sched : List Nat) (hN : 1 ≤ numThreads) :
    (∀ result, FindTopPixelsConcurrently image numThreads sched = some result →
      (coords result).Nodup) ∧
    (∀ result, FindTopPixelsAsync image numThreads = some result →
      (coords result).Nodup) ∧
    (numThreads * (image.length : Int) < 2147483648 →
      (∃ result, FindTopPixelsConcurrently image numThreads sched = some result) ∧
      ∃ result, FindTopPixelsAsync image numThreads = some result) := by
  have hc : (coords (allCells image)).Nodup := chunkOffers_coords_nodup 0 image 0
  refine ⟨?_, ?_, ?_⟩
  · intro r hr
    obtain ⟨rest, hp⟩ := concurrent_rest_run image numThreads sched r hr
    exact coords_nodup_of_rest _ r rest hp hc
  · intro r hr
    obtain ⟨rest, hp⟩ := async_rest_run image numThreads r hr
    exact coords_nodup_of_rest _ r rest hp hc
  · intro hB
    obtain ⟨r1, hr1, _⟩ := concurrent_spec image numThreads sched hN hB
    obtain ⟨_, d, _, _, _, _, _, hr2⟩ := async_spec image numThreads hN hB
    exact ⟨⟨r1, hr1⟩, ⟨_, hr2⟩⟩

/-- Witness of C12 on the 10 x 10 grid of zeros with two threads, where both entry points
return. -/
theorem C12_no_duplicate_cells_witness :
    (1 : Int) ≤ 2 ∧ (2 : Int) * ((zeroGrid 10 10).length : Int) < 2147483648 ∧
    (∃ result, FindTopPixelsConcurrently (zeroGrid 10 10) 2 [1, 0, 0] = some result ∧
      (coords result).Nodup) ∧
    (∃ result, FindTopPixelsAsync (zeroGrid 10 10) 2 = some result ∧
      (coords result).Nodup) :=
  have h := C12_no_duplicate_cells (zeroGrid 10 10) 2 [1, 0, 0] (by decide)
  have hb : (2 : Int) * ((zeroGrid 10 10).length : Int) < 2147483648 := by decide
  ⟨by decide, hb,
    (h.2.2 hb).1.elim fun r hr => ⟨r, hr, h.1 r hr⟩,
    (h.2.2 hb).2.elim fun r hr => ⟨r, hr, h.2.1 r hr⟩⟩

theorem concurrent_of_single (image : List (List Int)) (sched : List Nat) (q : List Pixel)
    (hq : dispatch workerOffers image 1 (1 : Int).toNat 0 = some [q]) :
    FindTopPixelsConcurrently image 1 sched =
      some (drainLoop (q.foldl offer []).length (q.foldl offer []) []).reverse := by
  unfold FindTopPixelsConcurrently
  rw [if_neg (by decide), hq]
  simp only [interleave_single]

/-- C18. Single-worker equivalence: for every image, `FindTopPixelsAsync image 1` and
`FindTopPixelsConcurrently image 1` return the same entries (one result is a rearrangement of
the other, so they hold the same set of `(value, row, col)`) and the same sequence of values;
one returns exactly when the other does, and both do for every image of fewer than `2 ^ 31`
rows. -/
theorem C18_single_worker_equivalence (image : List (List Int)) (sched : List Nat) :
    (∀ r1 r2, FindTopPixelsConcurrently image 1 sched = some r1 →
      FindTopPixelsAsync image 1 = some r2 →
      r1.Perm r2 ∧ (∀ e, e ∈ r1 ↔ e ∈ r2) ∧ r1.map Pixel.value = r2.map Pixel.value) ∧
    (FindTopPixelsAsync image 1 = none ↔ FindTopPixelsConcurrently image 1 sched = none) ∧
    (image.length < 2147483648 →
      ∃ r1 r2, FindTopPixelsConcurrently image 1 sched = some r1 ∧
        FindTopPixelsAsync image 1 = some r2) := by
  refine ⟨?_, async_none_iff image 1 sched, ?_⟩
  · intro r1 r2 h1 h2
    obtain ⟨qs, hq, _⟩ := concurrent_run image 1 sched r1 h1
    have hl : qs.length = 1 := dispatch_length _ _ _ _ _ _ hq
    match qs, hl, hq with
    | [q], _, hq =>
      obtain ⟨hh, hlen, _⟩ := topInv_run q
      obtain ⟨d1, hd1, hp1, hs1⟩ :=
        drainLoop_spec (q.foldl offer []).length (q.foldl offer []) [] (le_refl _) hh
      obtain ⟨d, hdp, hds, hr2⟩ := async_of_dispatch image 1 [q] (by decide) hq
      have hdh : d.Perm (q.foldl offer []) := by
        refine hdp.trans ?_
        simp
      have htake : d.take 51 = d :=
        List.take_of_length_le (by rw [hdh.length_eq, hlen]; omega)
      rw [htake, h2] at hr2
      obtain rfl : r2 = d.reverse := Option.some.inj hr2
      have hr1 := concurrent_of_single image sched q hq
      rw [h1, hd1, List.nil_append] at hr1
      obtain rfl : r1 = d1.reverse := Option.some.inj hr1
      have hperm : d1.reverse.Perm d.reverse :=
        ((List.reverse_perm d1).trans (hp1.trans hdh.symm)).trans (List.reverse_perm d).symm
      refine ⟨hperm, fun e => hperm.mem_iff, ?_⟩
      have s1 : (d1.reverse.map Pixel.value).Pairwise (fun a b => a ≥ b) := by
        rw [List.pairwise_map]; exact pairwise_reverse_ge d1 hs1
      have s2 : (d.reverse.map Pixel.value).Pairwise (fun a b => a ≥ b) := by
        rw [List.pairwise_map]; exact pairwise_reverse_ge d hds
      exact List.eq_of_perm_of_sorted (hperm.map _) s1 s2
  · intro hR
    have hB : (1 : Int) * (image.length : Int) < 2147483648 := by omega
    obtain ⟨r1, hr1, _⟩ := concurrent_spec image 1 sched (le_refl _) hB
    obtain ⟨_, d, _, _, _, _, _, hr2⟩ := async_spec image 1 (le_refl _) hB
    exact ⟨r1, _, hr1, hr2⟩

/-- Witness of C18 on the image `[[4,1],[3,2]]`, where both entry points return. -/
theorem C18_single_worker_equivalence_witness :
    ([[4, 1], [3, 2]] : List (List Int)).length < 2147483648 ∧
    ∃ r1 r2, FindTopPixelsConcurrently [[4, 1], [3, 2]] 1 [0] = some r1 ∧
      FindTopPixelsAsync [[4, 1], [3, 2]] 1 = some r2 ∧
      r1.Perm r2 ∧ (∀ e, e ∈ r1 ↔ e ∈ r2) ∧ r1.map Pixel.value = r2.map Pixel.value :=
  have h := C18_single_worker_equivalence [[4, 1], [3, 2]] [0]
  have hb : ([[4, 1], [3, 2]] : List (List Int)).length < 2147483648 := by decide
  ⟨hb, (h.2.2 hb).elim fun r1 h1 => h1.elim fun r2 h2 =>
    ⟨r1, r2, h2.1, h2.2, h.1 r1 r2 h2.1 h2.2⟩⟩

/-! ## Claims on worker counts below one and on the length of the merged result -/

theorem dispatch_lengths (image : List (List Int)) (numThreads : Int) (n i : Nat)
    (qs : List (List Pixel))
    (h : dispatch workerOffers image numThreads n (i : Int) = some qs) :
    qs.map List.length = (List.range' i n).map (partitionCells image numThreads) := by
  induction n generalizing i qs with
  | zero =>
    simp only [dispatch, Option.some.injEq] at h
    subst h
    simp
  | succ n ih =>
    rw [dispatch_succ] at h
    cases hc : chunkRows image (startRowOf (i : Int) (rowsOf image) numThreads)
        (endRowOf (i : Int) (rowsOf image) numThreads) with
    | none => rw [hc] at h; simp at h
    | some chunk =>
      rw [hc] at h
      have hcast : ((i : Int) + 1) = ((i + 1 : Nat) : Int) := by push_cast; rfl
      rw [hcast] at h
      cases hd : dispatch workerOffers image numThreads n ((i + 1 : Nat) : Int) with
      | none => rw [hd] at h; simp at h
      | some rest =>
        rw [hd] at h
        simp only [Option.some.injEq] at h
        subst h
        have hrest := ih (i + 1) rest hd
        have hp : partitionCells image numThreads i = cellCount chunk := by
          unfold partitionCells
          rw [hc]
        simp only [List.map_cons, List.range'_succ, hrest, hp, workerOffers,
          chunkOffers_length]

/-- C19 as stated fails: on a grid of 1048576 rows of one zero with 2048 threads the product
`2048 * 1048576` does not fit in `int`, the last chunk gets `endRow = -1048576`, and
`FindTopPixelsAsync` returns no entries at all, while `min 51 P` would be 51. -/
theorem C19_counterexample :
    (1 : Int) ≤ 2048 ∧ FindTopPixelsAsync (zeroGrid 1048576 1) 2048 = none :=
  ⟨by decide, async_overflow (zeroGrid 1048576 1) (List.length_replicate _ _)⟩

/-- C19, amended. Exact length of the independent-merge result: for every image and every
`numThreads ≥ 1`, whenever `FindTopPixelsAsync` returns, it returns exactly `min 51 P` entries,
`P` being the sum over the `numThreads` partitions of `min 50 (number of cells of the
partition)`, the size of the merged queue; and it does return when
`numThreads * rows < 2 ^ 31`. -/
theorem C19_async_exact_length (image : List (List Int)) (numThreads : Int)
    (hN : 1 ≤ numThreads) :
    (∀ result, FindTopPixelsAsync image numThreads = some result →
      result.length =
        min 51 ((List.range numThreads.toNat).map fun i =>
          min 50 (partitionCells image numThreads i)).sum) ∧
    (numThreads * (image.length : Int) < 2147483648 →
      ∃ result, FindTopPixelsAsync image numThreads = some result) := by
  constructor
  · intro r hr
    obtain ⟨qs, hq, hl⟩ := async_length_run image numThreads r hr
    have hlen := dispatch_lengths image numThreads numThreads.toNat 0 qs (by simpa using hq)
    have e : (qs.map fun q => min 50 q.length) =
        (qs.map List.length).map (fun k => min 50 k) := by
      rw [List.map_map]; rfl
    rw [hl, e, hlen, List.map_map, List.range_eq_range']
    rfl
  · intro hB
    obtain ⟨_, r, _, hr, _⟩ := async_length image numThreads hN hB
    exact ⟨r, hr⟩

/-- Witness of the amended C19 on the 10 x 10 grid of zeros with two threads, where
`FindTopPixelsAsync` returns. -/
theorem C19_async_exact_length_witness :
    (1 : Int) ≤ 2 ∧ (2 : Int) * ((zeroGrid 10 10).length : Int) < 2147483648 ∧
    ∃ result, FindTopPixelsAsync (zeroGrid 10 10) 2 = some result ∧
      result.length =
        min 51 ((List.range (2 : Int).toNat).map fun i =>
          min 50 (partitionCells (zeroGrid 10 10) 2 i)).sum :=
  have h := C19_async_exact_length (zeroGrid 10 10) 2 (by decide)
  have hb : (2 : Int) * ((zeroGrid 10 10).length : Int) < 2147483648 := by decide
  ⟨by decide, hb, (h.2 hb).elim fun r hr => ⟨r, hr, h.1 r hr⟩⟩

/-! ## The bounded queue holds the largest values offered -/

theorem count_split_int (l : List Int) (a : Int) :
    l.count a + l.countP (fun x => decide (a < x)) = l.countP (fun x => decide (a - 1 < x)) := by
  induction l with
  | nil => simp
  | cons x xs ih =>
    simp only [List.count_cons, List.countP_cons]
    have : x < a ∨ x = a ∨ a < x := lt_trichotomy _ _
    rcases this with h | h | h
    · have h1 : ¬ (a < x) := by omega
      have h2 : ¬ (a - 1 < x) := by omega
      have h3 : ¬ (x = a) := by omega
      simp [h1, h2, h3]
      omega
    · have h1 : ¬ (a < x) := by omega
      have h2 : (a - 1 < x) := by omega
      simp [h1, h2, h]
      omega
    · have h2 : (a - 1 < x) := by omega
      have h3 : ¬ (x = a) := by omega
      simp [h, h2, h3]
      omega

theorem top_values_countP (C V W : List Int) (hp : (V ++ W).Perm C)
    (hle : ∀ w ∈ W, ∀ v ∈ V, w ≤ v) (t : Int) :
    V.countP (fun x => decide (t < x)) = min V.length (C.countP (fun x => decide (t < x))) := by
  have hc := hp.countP_eq (fun x => decide (t < x))
  rw [List.countP_append] at hc
  have hub : V.countP (fun x => decide (t < x)) ≤ V.length := List.countP_le_length _
  by_cases hex : ∃ v ∈ V, v ≤ t
  · obtain ⟨v, hv, hvt⟩ := hex
    have hz : W.countP (fun x => decide (t < x)) = 0 := by
      rw [List.countP_eq_zero]
      intro w hw
      have := hle w hw v hv
      simp; omega
    omega
  · have hall : V.countP (fun x => decide (t < x)) = V.length := by
      rw [List.countP_eq_length]
      intro v hv
      have : ¬ v ≤ t := fun h => hex ⟨v, hv, h⟩
      simp; omega
    omega

theorem top_values_perm (C V1 W1 V2 W2 : List Int) (h1 : (V1 ++ W1).Perm C)
    (h2 : (V2 ++ W2).Perm C) (l1 : ∀ w ∈ W1, ∀ v ∈ V1, w ≤ v)
    (l2 : ∀ w ∈ W2, ∀ v ∈ V2, w ≤ v) (hlen : V1.length = V2.length) : V1.Perm V2 := by
  rw [List.perm_iff_count]
  intro a
  have e1 := count_split_int V1 a
  have e2 := count_split_int V2 a
  rw [top_values_countP C V1 W1 h1 l1, top_values_countP C V1 W1 h1 l1] at e1
  rw [top_values_countP C V2 W2 h2 l2, top_values_countP C V2 W2 h2 l2] at e2
  omega

theorem sorted_take_drop (S : List Int) (k : Nat) (hs : S.Pairwise (fun a b => a ≥ b)) :
    ∀ w ∈ S.drop k, ∀ v ∈ S.take k, w ≤ v := by
  intro w hw v hv
  have h : (S.take k ++ S.drop k).Pairwise (fun a b => a ≥ b) := by
    rw [List.take_append_drop]; exact hs
  rw [List.pairwise_append] at h
  exact h.2.2 v hv w hw

/-- C14. Bounded-set invariant of the heap-based offer: starting from the empty queue, after
any sequence `offers` of offers (push, then pop the top when the size exceeds 50) the queue
holds exactly `min 50 (number of offers)` entries, and their values are, as a multiset, the
`min 50 n` largest of the values offered: the first `min 50 n` of the offered values sorted
from the largest. -/
theorem C14_bounded_set_invariant (offers : List Pixel) :
    (offers.foldl offer []).length = min 50 offers.length ∧
    ((offers.foldl offer []).map Pixel.value).Perm
      (((offers.map Pixel.value).insertionSort (fun a b => a ≥ b)).take
        (min 50 offers.length)) := by
  obtain ⟨_, hlen, ev, hp, hle⟩ := topInv_run offers
  refine ⟨hlen, ?_⟩
  have hsort := List.sorted_insertionSort (fun a b : Int => a ≥ b) (offers.map Pixel.value)
  have hperm := List.perm_insertionSort (fun a b : Int => a ≥ b) (offers.map Pixel.value)
  apply top_values_perm (offers.map Pixel.value) _ (ev.map Pixel.value) _
    (((offers.map Pixel.value).insertionSort (fun a b => a ≥ b)).drop (min 50 offers.length))
  · rw [← List.map_append]; exact hp.map _
  · rw [List.take_append_drop]; exact hperm
  · intro w hw v hv
    obtain ⟨c, hc, rfl⟩ := List.mem_map.mp hw
    obtain ⟨e, he, rfl⟩ := List.mem_map.mp hv
    exact hle c hc e he
  · exact sorted_take_drop _ _ hsort
  · rw [List.length_map, hlen, List.length_take, hperm.length_eq, List.length_map]
    omega

/-! ## Ties at the top of a full queue -/

theorem pushHeapLoop_root (fuel : Nat) (a : List Pixel) (hole : Nat) (v : Pixel)
    (hpos : 0 < hole) (hroot : keyOf a 0 ≤ v.value) :
    (pushHeapLoop fuel a hole 0 v).getD 0 default = a.getD 0 default := by
  induction fuel generalizing a hole with
  | zero => simp only [pushHeapLoop]; exact getD_set_ne a hole 0 v (by omega)
  | succ n ih =>
    simp only [pushHeapLoop]
    split_ifs with hc
    · obtain ⟨_, hcmp⟩ := hc
      have hlt : v.value < keyOf a ((hole - 1) / 2) := by
        simpa [ComparePixels, keyOf] using hcmp
      have hp : 0 < (hole - 1) / 2 := by
        rcases Nat.eq_zero_or_pos ((hole - 1) / 2) with h0 | h0
        · rw [h0] at hlt; omega
        · exact h0
      have hk : keyOf (a.set hole (a.getD ((hole - 1) / 2) default)) 0 = keyOf a 0 := by
        show ((a.set hole _).getD 0 default).value = _
        rw [getD_set_ne a hole 0 _ (by omega)]
        rfl
      rw [ih _ _ hp (by rw [hk]; exact hroot)]
      exact getD_set_ne a hole 0 _ (by omega)
    · exact getD_set_ne a hole 0 v (by omega)

theorem pqPush_root (t : Pixel) (rest : List Pixel) (p : Pixel) (h : t.value ≤ p.value) :
    ∃ tail, pqPush (t :: rest) p = t :: tail := by
  have hl := pqPush_length (t :: rest) p
  have h0 : (pqPush (t :: rest) p).getD 0 default = t := by
    unfold pqPush push_heap
    have e : (t :: rest ++ [p]).length - 1 = rest.length + 1 := by simp
    rw [e, pushHeapLoop_root _ _ _ _ (by omega) (by simpa [keyOf] using h)]
    rfl
  cases hq : pqPush (t :: rest) p with
  | nil => rw [hq] at hl; simp at hl
  | cons x tail =>
    rw [hq] at h0
    simp only [List.getD_cons_zero] at h0
    exact ⟨tail, by rw [h0]⟩

/-- An offer to a full queue whose value is not below that of the top is admitted, and the top
is the entry evicted. -/
theorem offer_admits (t : Pixel) (rest : List Pixel) (p : Pixel)
    (hl : (t :: rest).length = 50) (h : t.value ≤ p.value) :
    (offer (t :: rest) p).Perm (p :: rest) := by
  obtain ⟨tail, ht⟩ := pqPush_root t rest p h
  have hpl := pqPush_length (t :: rest) p
  have hpp := pqPush_perm (t :: rest) p
  unfold offer
  simp only
  rw [if_pos (by rw [hpl, hl]; decide), ht]
  rw [ht] at hpp
  have e1 := (pqPop_perm t tail).trans hpp
  exact (e1.trans (List.Perm.swap t p rest)).cons_inv

/-- An offer to a full queue whose value is strictly below every resident value is the entry
evicted. -/
theorem offer_discards (h : List Pixel) (p : Pixel) (hh : IsHeap h) (hl : h.length = 50)
    (hlt : ∀ e ∈ h, p.value < e.value) : (offer h p).Perm h := by
  have hpl := pqPush_length h p
  have hpp := pqPush_perm h p
  have hph := pqPush_heap h p hh
  unfold offer
  simp only
  rw [if_pos (by rw [hpl, hl]; decide)]
  cases hq : pqPush h p with
  | nil => rw [hq] at hpl; simp at hpl
  | cons t tail =>
    rw [hq] at hpp hph
    have htop := heap_top_le t tail hph
    have htm : t ∈ p :: h := hpp.subset (List.mem_cons_self t tail)
    have hpm : p ∈ t :: tail := hpp.symm.subset (List.mem_cons_self p h)
    have htp : t = p := by
      rcases List.mem_cons.mp htm with e | e
      · exact e
      · have h1 := hlt t e
        have h2 := htop p hpm
        omega
    subst htp
    exact ((pqPop_perm t tail).trans hpp).cons_inv

theorem full_zero_queue :
    decide (∀ e ∈ (allCells (zeroGrid 50 1)).foldl offer [], (0 : Int) ≤ e.value) = true ∧
    decide ((⟨0, 50, 0⟩ : Pixel) ∈ (allCells (zeroGrid 50 1)).foldl offer []) = false ∧
    decide ((⟨0, 50, 0⟩ : Pixel) ∈
      offer ((allCells (zeroGrid 50 1)).foldl offer []) ⟨0, 50, 0⟩) = true := by
  decide!

/-- C15 as stated fails: the queue filled with the 50 cells of the 50 x 1 grid of zeros is
offered a further pixel of value 0, the same as its minimum; the offered pixel becomes a
resident entry, so the set of resident entries changes. -/
theorem C15_counterexample :
    ¬ ∀ (h : List Pixel) (p : Pixel), IsHeap h → h.length = 50 →
      (∀ e ∈ h, p.value ≤ e.value) → ∀ e, e ∈ offer h p ↔ e ∈ h := by
  intro H
  obtain ⟨hh, hlen, _⟩ := topInv_run (allCells (zeroGrid 50 1))
  obtain ⟨e1, e2, e3⟩ := full_zero_queue
  have hl : ((allCells (zeroGrid 50 1)).foldl offer []).length = 50 := by
    rw [hlen, allCells_length]; decide
  have := H _ ⟨0, 50, 0⟩ hh hl (of_decide_eq_true e1) ⟨0, 50, 0⟩
  exact (of_decide_eq_false e2) (this.mp (of_decide_eq_true e3))

/-- C15, amended. Tie rule of the heap-based offer: for every queue in heap order holding 50
entries, an offered pixel whose value is strictly less than every resident value is the one
discarded and the resident entries are unchanged; an offered pixel whose value equals that of
the top (the current minimum) is admitted, and the top is the entry evicted. -/
theorem C15_offer_tie_rule (h : List Pixel) (p : Pixel) (hh : IsHeap h)
    (hl : h.length = 50) :
    ((∀ e ∈ h, p.value < e.value) → (offer h p).Perm h) ∧
    (∀ t rest, h = t :: rest → p.value = t.value →
      (∀ e ∈ h, t.value ≤ e.value) ∧ (offer h p).Perm (p :: rest)) := by
  refine ⟨offer_discards h p hh hl, ?_⟩
  intro t rest ht hv
  subst ht
  exact ⟨heap_top_le t rest hh, offer_admits t rest p hl (by omega)⟩

/-- Witness of the amended C15 on the full queue of the counterexample, offered a pixel of
value 0. -/
theorem C15_offer_tie_rule_witness :
    IsHeap ((allCells (zeroGrid 50 1)).foldl offer []) ∧
    ((allCells (zeroGrid 50 1)).foldl offer []).length = 50 ∧
    (((∀ e ∈ (allCells (zeroGrid 50 1)).foldl offer [], (⟨0, 50, 0⟩ : Pixel).value < e.value) →
      (offer ((allCells (zeroGrid 50 1)).foldl offer []) ⟨0, 50, 0⟩).Perm
        ((allCells (zeroGrid 50 1)).foldl offer [])) ∧
    (∀ t rest, (allCells (zeroGrid 50 1)).foldl offer [] = t :: rest →
      (⟨0, 50, 0⟩ : Pixel).value = t.value →
      (∀ e ∈ (allCells (zeroGrid 50 1)).foldl offer [], t.value ≤ e.value) ∧
      (offer ((allCells (zeroGrid 50 1)).foldl offer []) ⟨0, 50, 0⟩).Perm
        (⟨0, 50, 0⟩ :: rest))) :=
  ⟨(topInv_run (allCells (zeroGrid 50 1))).1,
    by rw [(topInv_run (allCells (zeroGrid 50 1))).2.1, allCells_length]; decide,
    C15_offer_tie_rule _ ⟨0, 50, 0⟩ (topInv_run (allCells (zeroGrid 50 1))).1
      (by rw [(topInv_run (allCells (zeroGrid 50 1))).2.1, allCells_length]; decide)⟩

/-! ## The sorting-based offer -/

theorem insertionSortDesc_contract : SortContract insertionSortDesc := by
  intro l
  haveI : IsTotal Pixel (fun a b => a.value ≥ b.value) := ⟨fun a b => le_total b.value a.value⟩
  haveI : IsTrans Pixel (fun a b => a.value ≥ b.value) :=
    ⟨fun a b c h1 h2 => le_trans h2 h1⟩
  exact ⟨List.perm_insertionSort _ l, List.sorted_insertionSort _ l⟩

theorem sorted_getLast_le (l : List Pixel) (back : Pixel)
    (hs : l.Pairwise (fun a b => a.value ≥ b.value)) (hb : l.getLast? = some back) :
    ∀ e ∈ l, back.value ≤ e.value := by
  intro e he
  have hne : l ≠ [] := by intro h; rw [h] at hb; simp at hb
  have hd := List.dropLast_append_getLast hne
  have hgl : l.getLast hne = back := by
    rw [List.getLast?_eq_getLast l hne] at hb
    exact Option.some.inj hb
  rw [hgl] at hd
  rw [← hd] at hs he
  rw [List.pairwise_append] at hs
  rcases List.mem_append.mp he with h1 | h1
  · exact hs.2.2 e h1 back (List.mem_singleton_self back)
  · rw [List.mem_singleton.mp h1]

theorem sortingOffer_spec (sort : List Pixel → List Pixel) (hsort : SortContract sort)
    (topPixels : List Pixel) (pixel : Pixel)
    (hs : topPixels.Pairwise (fun a b => a.value ≥ b.value)) (hl : topPixels.length ≤ 50) :
    (topPixels.length < 50 →
      (sortingOffer sort topPixels pixel).Perm (topPixels ++ [pixel])) ∧
    (topPixels.length = 50 →
      ∃ back, topPixels.getLast? = some back ∧ (∀ e ∈ topPixels, back.value ≤ e.value) ∧
        (pixel.value > back.value →
          (sortingOffer sort topPixels pixel).Perm (topPixels.dropLast ++ [pixel])) ∧
        (¬ pixel.value > back.value → sortingOffer sort topPixels pixel = topPixels)) ∧
    (sortingOffer sort topPixels pixel).Pairwise (fun a b => a.value ≥ b.value) ∧
    (sortingOffer sort topPixels pixel).length ≤ 50 := by
  by_cases hlt : topPixels.length < 50
  · have he : sortingOffer sort topPixels pixel = sort (topPixels ++ [pixel]) := by
      unfold sortingOffer; rw [if_pos hlt]
    rw [he]
    refine ⟨fun _ => (hsort _).1, fun h => by omega, (hsort _).2, ?_⟩
    rw [(hsort _).1.length_eq]; simp; omega
  · have h50 : topPixels.length = 50 := by omega
    have hne : topPixels ≠ [] := by intro h; rw [h] at h50; simp at h50
    have hb : topPixels.getLast? = some (topPixels.getLast hne) :=
      List.getLast?_eq_getLast topPixels hne
    refine ⟨fun h => by omega, fun _ => ⟨topPixels.getLast hne, hb,
      sorted_getLast_le topPixels _ hs hb, ?_, ?_⟩, ?_, ?_⟩
    · intro hgt
      unfold sortingOffer
      rw [if_neg hlt, hb]
      simp only
      rw [if_pos hgt]
      exact (hsort _).1
    · intro hng
      unfold sortingOffer
      rw [if_neg hlt, hb]
      simp only
      rw [if_neg hng]
    · unfold sortingOffer
      rw [if_neg hlt, hb]
      simp only
      split_ifs
      · exact (hsort _).2
      · exact hs
    · unfold sortingOffer
      rw [if_neg hlt, hb]
      simp only
      split_ifs
      · rw [(hsort _).1.length_eq]; simp; omega
      · omega

theorem sortingOffer_foldl (sort : List Pixel → List Pixel) (hsort : SortContract sort)
    (pixels topPixels : List Pixel)
    (hs : topPixels.Pairwise (fun a b => a.value ≥ b.value)) (hl : topPixels.length ≤ 50) :
    (pixels.foldl (sortingOffer sort) topPixels).Pairwise (fun a b => a.value ≥ b.value) ∧
    (pixels.foldl (sortingOffer sort) topPixels).length ≤ 50 := by
  induction pixels generalizing topPixels with
  | nil => exact ⟨hs, hl⟩
  | cons p ps ih =>
    obtain ⟨_, _, h3, h4⟩ := sortingOffer_spec sort hsort topPixels p hs hl
    exact ih (sortingOffer sort topPixels p) h3 h4

theorem sortingRows_invariant (sort : List Pixel → List Pixel) (hsort : SortContract sort)
    (image : List (List Int)) (n : Nat) (i : Int) (topPixels r : List Pixel)
    (hs : topPixels.Pairwise (fun a b => a.value ≥ b.value)) (hl : topPixels.length ≤ 50)
    (h : sortingRows sort image n i topPixels = some r) :
    r.Pairwise (fun a b => a.value ≥ b.value) ∧ r.length ≤ 50 := by
  induction n generalizing i topPixels with
  | zero =>
    simp only [sortingRows, Option.some.injEq] at h
    subst h
    exact ⟨hs, hl⟩
  | succ n ih =>
    simp only [sortingRows] at h
    split_ifs at h with h0
    cases hr : image[i.toNat]? with
    | none => rw [hr] at h; simp at h
    | some rowl =>
      rw [hr] at h
      obtain ⟨h1, h2⟩ := sortingOffer_foldl sort hsort (rowOffers i rowl 0) topPixels hs hl
      exact ih (i + 1) _ h1 h2 h

/-- Whenever `GetTopPixelsWithSorting` returns, it leaves a sorted `topPixels` of at most 50
entries sorted and of at most 50 entries. -/
theorem GetTopPixelsWithSorting_invariant (sort : List Pixel → List Pixel)
    (hsort : SortContract sort) (image : List (List Int)) (topPixels r : List Pixel)
    (startRow endRow : Int)
    (hs : topPixels.Pairwise (fun a b => a.value ≥ b.value)) (hl : topPixels.length ≤ 50)
    (h : GetTopPixelsWithSorting sort image topPixels startRow endRow = some r) :
    r.Pairwise (fun a b => a.value ≥ b.value) ∧ r.length ≤ 50 :=
  sortingRows_invariant sort hsort image _ startRow topPixels r hs hl h

/-- C16 as stated fails for a sorted `topPixels` of more than 50 entries: with 51 entries of
value 3, whatever `std::sort` does, the guarded body leaves `topPixels` unchanged when offered a
pixel of value 1 (neither branch is taken), so after the step it still has 51 entries, not at
most 50. -/
theorem C16_counterexample :
    (List.replicate 51 (⟨3, 0, 0⟩ : Pixel)).Pairwise (fun a b => a.value ≥ b.value) ∧
    ∀ sort : List Pixel → List Pixel,
      sortingOffer sort (List.replicate 51 ⟨3, 0, 0⟩) ⟨1, 1, 1⟩ =
        List.replicate 51 ⟨3, 0, 0⟩ ∧
      ¬ (sortingOffer sort (List.replicate 51 ⟨3, 0, 0⟩) ⟨1, 1, 1⟩).length ≤ 50 := by
  refine ⟨List.pairwise_replicate.mpr (Or.inr (le_refl _)), fun sort => ?_⟩
  have h : sortingOffer sort (List.replicate 51 ⟨3, 0, 0⟩) ⟨1, 1, 1⟩ =
      List.replicate 51 ⟨3, 0, 0⟩ := by
    unfold sortingOffer
    rw [if_neg (by decide)]
    rfl
  rw [h]
  exact ⟨rfl, by decide⟩

/-- C16, amended. Sorting-based offer of `GetTopPixelsWithSorting`: for every `topPixels` sorted
non-increasing by value with at most 50 entries, the processed pixel is added when there are
fewer than 50 entries; with 50 entries it replaces the last entry, which has the smallest
value, when its value is strictly greater than that entry's, and otherwise `topPixels` is left
unchanged; after the step, and after any number of steps, `topPixels` is again sorted
non-increasing with at most 50 entries. -/
theorem C16_sorting_offer (sort : List Pixel → List Pixel) (hsort : SortContract sort)
    (topPixels : List Pixel) (pixel : Pixel)
    (hs : topPixels.Pairwise (fun a b => a.value ≥ b.value)) (hl : topPixels.length ≤ 50) :
    (topPixels.length < 50 →
      (sortingOffer sort topPixels pixel).Perm (topPixels ++ [pixel])) ∧
    (topPixels.length = 50 →
      ∃ back, topPixels.getLast? = some back ∧ (∀ e ∈ topPixels, back.value ≤ e.value) ∧
        (pixel.value > back.value →
          (sortingOffer sort topPixels pixel).Perm (topPixels.dropLast ++ [pixel])) ∧
        (¬ pixel.value > back.value → sortingOffer sort topPixels pixel = topPixels)) ∧
    ((sortingOffer sort topPixels pixel).Pairwise (fun a b => a.value ≥ b.value) ∧
      (sortingOffer sort topPixels pixel).length ≤ 50) ∧
    ∀ pixels : List Pixel,
      (pixels.foldl (sortingOffer sort) topPixels).Pairwise (fun a b => a.value ≥ b.value) ∧
      (pixels.foldl (sortingOffer sort) topPixels).length ≤ 50 := by
  obtain ⟨h1, h2, h3, h4⟩ := sortingOffer_spec sort hsort topPixels pixel hs hl
  exact ⟨h1, h2, ⟨h3, h4⟩, fun pixels => sortingOffer_foldl sort hsort pixels topPixels hs hl⟩

/-- Witness of the amended C16 with insertion sort, on a full `topPixels` of 50 equal values offered a
greater one. -/
theorem C16_sorting_offer_witness :
    SortContract insertionSortDesc ∧
    (List.replicate 50 (⟨3, 0, 0⟩ : Pixel)).Pairwise (fun a b => a.value ≥ b.value) ∧
    (List.replicate 50 (⟨3, 0, 0⟩ : Pixel)).length ≤ 50 ∧
    (((List.replicate 50 (⟨3, 0, 0⟩ : Pixel)).length < 50 →
      (sortingOffer insertionSortDesc (List.replicate 50 ⟨3, 0, 0⟩) ⟨7, 1, 1⟩).Perm
        (List.replicate 50 ⟨3, 0, 0⟩ ++ [⟨7, 1, 1⟩])) ∧
    ((List.replicate 50 (⟨3, 0, 0⟩ : Pixel)).length = 50 →
      ∃ back, (List.replicate 50 (⟨3, 0, 0⟩ : Pixel)).getLast? = some back ∧
        (∀ e ∈ List.replicate 50 (⟨3, 0, 0⟩ : Pixel), back.value ≤ e.value) ∧
        ((⟨7, 1, 1⟩ : Pixel).value > back.value →
          (sortingOffer insertionSortDesc (List.replicate 50 ⟨3, 0, 0⟩) ⟨7, 1, 1⟩).Perm
            ((List.replicate 50 (⟨3, 0, 0⟩ : Pixel)).dropLast ++ [⟨7, 1, 1⟩])) ∧
        (¬ (⟨7, 1, 1⟩ : Pixel).value > back.value →
          sortingOffer insertionSortDesc (List.replicate 50 ⟨3, 0, 0⟩) ⟨7, 1, 1⟩ =
            List.replicate 50 ⟨3, 0, 0⟩)) ∧
    ((sortingOffer insertionSortDesc (List.replicate 50 ⟨3, 0, 0⟩) ⟨7, 1, 1⟩).Pairwise
      (fun a b => a.value ≥ b.value) ∧
    (sortingOffer insertionSortDesc (List.replicate 50 ⟨3, 0, 0⟩) ⟨7, 1, 1⟩).length ≤ 50) ∧
    ∀ pixels : List Pixel,
      (pixels.foldl (sortingOffer insertionSortDesc) (List.replicate 50 ⟨3, 0, 0⟩)).Pairwise
        (fun a b => a.value ≥ b.value) ∧
      (pixels.foldl (sortingOffer insertionSortDesc) (List.replicate 50 ⟨3, 0, 0⟩)).length
        ≤ 50) :=
  ⟨insertionSortDesc_contract,
    List.pairwise_replicate.mpr (Or.inr (le_refl _)),
    by simp,
    C16_sorting_offer insertionSortDesc insertionSortDesc_contract
      (List.replicate 50 ⟨3, 0, 0⟩) ⟨7, 1, 1⟩
      (List.pairwise_replicate.mpr (Or.inr (le_refl _))) (by simp)⟩

end TopK
